import Mathlib

/-!
# tm-tui: the fetch-and-list core

A shallow embedding of the Go sources `src/data/issueapi.go` and `src/poc/main.go`, and of
the standard-library sort they call, followed by the properties proved about them.

* `GoSort`: `sort.Slice` of the Go standard library (pattern-defeating quicksort).
* `GoTime`, `Fmt`, `Lipgloss`: the library values the program computes with.
* `Data`: `makeIssuesQuery` and `FetchIssues`.
* `Poc`: `Stack`, its list-item methods, `fetchStacks` and the `Model` of the dashboard.
-/

/-! ## Package `sort` of the Go standard library: `sort.Slice`

`fetchStacks` sorts with `sort.Slice`, which since Go 1.19 runs the pattern-defeating
quicksort `pdqsort_func` of `sort/zsortfunc.go`.  A slice is a `List`; an index out of range is the
run-time panic of Go and is `none` here, as is running out of loop fuel. -/

namespace GoSort

variable {α : Type}

/-- The call `data.Less(i, j)` of `lessSwap`: compares the elements at `i` and `j`. -/
def Less (less : α → α → Bool) (data : List α) (i j : Nat) : Option Bool :=
  match data[i]?, data[j]? with
  | some x, some y => some (less x y)
  | _, _ => none

/-- The call `data.Swap(i, j)` of `lessSwap`: exchanges the elements at `i` and `j`. -/
def Swap (data : List α) (i j : Nat) : Option (List α) :=
  match data[i]?, data[j]? with
  | some x, some y => some ((data.set i y).set j x)
  | _, _ => none

/-- Inner loop of `insertionSort_func`:
`for j := i; j > a && data.Less(j, j-1); j-- { data.Swap(j, j-1) }`. -/
def insertionSort_inner (less : α → α → Bool) (a : Nat) : Nat → List α → Option (List α)
  | 0, data => some data
  | j + 1, data =>
    if a < j + 1 then
      match Less less data (j + 1) j with
      | none => none
      | some true =>
        match Swap data (j + 1) j with
        | none => none
        | some data1 => insertionSort_inner less a j data1
      | some false => some data
    else some data

/-- Outer loop of `insertionSort_func`: `for i := a + 1; i < b; i++`. -/
def insertionSort_outer (less : α → α → Bool) (a b : Nat) :
    Nat → Nat → List α → Option (List α)
  | 0, i, data => if i < b then none else some data
  | fuel + 1, i, data =>
    if i < b then
      match insertionSort_inner less a i data with
      | none => none
      | some data1 => insertionSort_outer less a b fuel (i + 1) data1
    else some data

/-- Go `insertionSort_func`: sorts `data[a:b]` using insertion sort. -/
def insertionSort_func (less : α → α → Bool) (data : List α) (a b : Nat) : Option (List α) :=
  insertionSort_outer less a b (b - a) (a + 1) data

/-- Loop of `siftDown_func`, with `root` the loop variable. -/
def siftDown_loop (less : α → α → Bool) (hi first : Nat) :
    Nat → Nat → List α → Option (List α)
  | 0, _, _ => none
  | fuel + 1, root, data =>
    let child := 2 * root + 1
    if hi ≤ child then some data
    else
      let pick : Option Nat :=
        if child + 1 < hi then
          match Less less data (first + child) (first + child + 1) with
          | none => none
          | some true => some (child + 1)
          | some false => some child
        else some child
      match pick with
      | none => none
      | some child1 =>
        match Less less data (first + root) (first + child1) with
        | none => none
        | some false => some data
        | some true =>
          match Swap data (first + root) (first + child1) with
          | none => none
          | some data1 => siftDown_loop less hi first fuel child1 data1

/-- Go `siftDown_func`: implements the heap property on `data[lo:hi]`. -/
def siftDown_func (less : α → α → Bool) (data : List α) (lo hi first : Nat) :
    Option (List α) :=
  siftDown_loop less hi first (hi + 1) lo data

/-- First loop of `heapSort_func`, `for i := (hi - 1) / 2; i >= 0; i--`;
`heapSort_build n` runs the iterations `i = n - 1, ..., 0`. -/
def heapSort_build (less : α → α → Bool) (hi first : Nat) : Nat → List α → Option (List α)
  | 0, data => some data
  | i + 1, data =>
    match siftDown_func less data i hi first with
    | none => none
    | some data1 => heapSort_build less hi first i data1

/-- Second loop of `heapSort_func`, `for i := hi - 1; i >= 0; i--`;
`heapSort_pop n` runs the iterations `i = n - 1, ..., 0`. -/
def heapSort_pop (less : α → α → Bool) (first : Nat) : Nat → List α → Option (List α)
  | 0, data => some data
  | i + 1, data =>
    match Swap data first (first + i) with
    | none => none
    | some data1 =>
      match siftDown_func less data1 0 i first with
      | none => none
      | some data2 => heapSort_pop less first i data2

/-- Go `heapSort_func`. -/
def heapSort_func (less : α → α → Bool) (data : List α) (a b : Nat) : Option (List α) :=
  let first := a
  let hi := b - a
  match heapSort_build less hi first ((hi - 1) / 2 + 1) data with
  | none => none
  | some data1 => heapSort_pop less first hi data1

/-- Go `sortedHint`. -/
inductive sortedHint
  | unknownHint
  | increasingHint
  | decreasingHint
  deriving DecidableEq

/-- Go `order2_func`: returns `x, y` where `data[x] <= data[y]`, counting a swap. -/
def order2_func (less : α → α → Bool) (data : List α) (a b swaps : Nat) :
    Option (Nat × Nat × Nat) :=
  match Less less data b a with
  | none => none
  | some true => some (b, a, swaps + 1)
  | some false => some (a, b, swaps)

/-- Go `median_func`: index of the median of `data[a]`, `data[b]`, `data[c]`. -/
def median_func (less : α → α → Bool) (data : List α) (a b c swaps : Nat) :
    Option (Nat × Nat) :=
  match order2_func less data a b swaps with
  | none => none
  | some (a1, b1, s1) =>
    match order2_func less data b1 c s1 with
    | none => none
    | some (b2, _, s2) =>
      match order2_func less data a1 b2 s2 with
      | none => none
      | some (_, b3, s3) => some (b3, s3)

/-- Go `medianAdjacent_func`. -/
def medianAdjacent_func (less : α → α → Bool) (data : List α) (a swaps : Nat) :
    Option (Nat × Nat) :=
  median_func less data (a - 1) a (a + 1) swaps

/-- Go `choosePivot_func`: chooses a pivot in `data[a:b]`. -/
def choosePivot_func (less : α → α → Bool) (data : List α) (a b : Nat) :
    Option (Nat × sortedHint) :=
  let l := b - a
  let i := a + l / 4 * 1
  let j := a + l / 4 * 2
  let k := a + l / 4 * 3
  let chosen : Option (Nat × Nat) :=
    if 8 ≤ l then
      if 50 ≤ l then
        match medianAdjacent_func less data i 0 with
        | none => none
        | some (i1, s1) =>
          match medianAdjacent_func less data j s1 with
          | none => none
          | some (j1, s2) =>
            match medianAdjacent_func less data k s2 with
            | none => none
            | some (k1, s3) => median_func less data i1 j1 k1 s3
      else median_func less data i j k 0
    else some (j, 0)
  match chosen with
  | none => none
  | some (j1, swaps) =>
    if swaps = 0 then some (j1, sortedHint.increasingHint)
    else if swaps = 4 * 3 then some (j1, sortedHint.decreasingHint)
    else some (j1, sortedHint.unknownHint)

/-- Loop of `reverseRange_func`: `for i < j { data.Swap(i, j); i++; j-- }`. -/
def reverseRange_loop : Nat → Nat → Nat → List α → Option (List α)
  | 0, i, j, data => if i < j then none else some data
  | fuel + 1, i, j, data =>
    if i < j then
      match Swap data i j with
      | none => none
      | some data1 => reverseRange_loop fuel (i + 1) (j - 1) data1
    else some data

/-- Go `reverseRange_func`. -/
def reverseRange_func (data : List α) (a b : Nat) : Option (List α) :=
  reverseRange_loop (b - a) a (b - 1) data

/-- Go `bits.Len`: the number of bits needed to represent `n`. -/
def bitsLen : Nat → Nat → Nat
  | 0, _ => 0
  | fuel + 1, n => if n = 0 then 0 else bitsLen fuel (n / 2) + 1

/-- Go `xorshift.Next` on a `uint64` state, with the shifts 13, 7 and 17 of the 64-bit
generator. -/
def xorshift_Next (r : Nat) : Nat :=
  let r1 := (r ^^^ (r <<< 13)) % 2 ^ 64
  let r2 := r1 ^^^ (r1 >>> 7)
  (r2 ^^^ (r2 <<< 17)) % 2 ^ 64

/-- Go `nextPowerOfTwo`. -/
def nextPowerOfTwo (length : Nat) : Nat :=
  2 ^ bitsLen length length

/-- Body of the loop of `breakPatterns_func`: the random swap `data.Swap(idx+i, a+other)`;
returns the new generator state too. -/
def breakPatterns_step (data : List α) (a length idx i random : Nat) :
    Option (List α × Nat) :=
  let random1 := xorshift_Next random
  let other0 := random1 &&& (nextPowerOfTwo length - 1)
  let other := if length ≤ other0 then other0 - length else other0
  match Swap data (idx + i) (a + other) with
  | none => none
  | some data1 => some (data1, random1)

/-- Go `breakPatterns_func`: scatters the three elements at `idx`, `idx + 1` and `idx + 2`,
where `idx` is `a + (length/4)*2 - 1`. -/
def breakPatterns_func (data : List α) (a b : Nat) : Option (List α) :=
  let length := b - a
  if 8 ≤ length then
    let idx := a + (length / 4) * 2 - 1
    match breakPatterns_step data a length idx 0 length with
    | none => none
    | some (data1, r1) =>
      match breakPatterns_step data1 a length idx 1 r1 with
      | none => none
      | some (data2, r2) =>
        match breakPatterns_step data2 a length idx 2 r2 with
        | none => none
        | some (data3, _) => some data3
  else some data

/-- Scan of `partialInsertionSort_func`: `for i < b && !data.Less(i, i-1) { i++ }`. -/
def partialInsertionSort_scan (less : α → α → Bool) (data : List α) (b : Nat) :
    Nat → Nat → Option Nat
  | 0, i => if i < b then none else some i
  | fuel + 1, i =>
    if i < b then
      match Less less data i (i - 1) with
      | none => none
      | some true => some i
      | some false => partialInsertionSort_scan less data b fuel (i + 1)
    else some i

/-- Left shift of `partialInsertionSort_func`:
`for j := i - 1; j >= 1; j-- { if !data.Less(j, j-1) { break }; data.Swap(j, j-1) }`. -/
def partialInsertionSort_left (less : α → α → Bool) : Nat → List α → Option (List α)
  | 0, data => some data
  | j + 1, data =>
    match Less less data (j + 1) j with
    | none => none
    | some false => some data
    | some true =>
      match Swap data (j + 1) j with
      | none => none
      | some data1 => partialInsertionSort_left less j data1

/-- Right shift of `partialInsertionSort_func`:
`for j := i + 1; j < b; j++ { if !data.Less(j, j-1) { break }; data.Swap(j, j-1) }`. -/
def partialInsertionSort_right (less : α → α → Bool) (b : Nat) :
    Nat → Nat → List α → Option (List α)
  | 0, j, data => if j < b then none else some data
  | fuel + 1, j, data =>
    if j < b then
      match Less less data j (j - 1) with
      | none => none
      | some false => some data
      | some true =>
        match Swap data j (j - 1) with
        | none => none
        | some data1 => partialInsertionSort_right less b fuel (j + 1) data1
    else some data

/-- Outer loop of `partialInsertionSort_func`, `for j := 0; j < maxSteps; j++`, with
`steps` the iterations left. -/
def partialInsertionSort_loop (less : α → α → Bool) (a b : Nat) :
    Nat → Nat → List α → Option (List α × Bool)
  | 0, _, data => some (data, false)
  | steps + 1, i, data =>
    match partialInsertionSort_scan less data b (b - i) i with
    | none => none
    | some i1 =>
      if i1 = b then some (data, true)
      else if b - a < 50 then some (data, false)
      else
        match Swap data i1 (i1 - 1) with
        | none => none
        | some data1 =>
          let shiftedLeft : Option (List α) :=
            if 2 ≤ i1 - a then partialInsertionSort_left less (i1 - 1) data1 else some data1
          match shiftedLeft with
          | none => none
          | some data2 =>
            let shiftedRight : Option (List α) :=
              if 2 ≤ b - i1 then partialInsertionSort_right less b (b - i1) (i1 + 1) data2
              else some data2
            match shiftedRight with
            | none => none
            | some data3 => partialInsertionSort_loop less a b steps i1 data3

/-- Go `partialInsertionSort_func`: partially sorts a slice, returns true if the slice is
sorted at the end. -/
def partialInsertionSort_func (less : α → α → Bool) (data : List α) (a b : Nat) :
    Option (List α × Bool) :=
  partialInsertionSort_loop less a b 5 (a + 1) data

/-- Upward scan of the partition loops: `for i <= j && cond(i) { i++ }`, where `cond i` is
`data.Less(i, a)` in `partition_func` and `!data.Less(a, i)` in `partitionEqual_func`. -/
def scanUp (cond : Nat → Option Bool) (j : Nat) : Nat → Nat → Option Nat
  | 0, i => if i ≤ j then none else some i
  | fuel + 1, i =>
    if i ≤ j then
      match cond i with
      | none => none
      | some true => scanUp cond j fuel (i + 1)
      | some false => some i
    else some i

/-- Downward scan of the partition loops: `for i <= j && cond(j) { j-- }`. -/
def scanDown (cond : Nat → Option Bool) (i : Nat) : Nat → Nat → Option Nat
  | 0, j => if i ≤ j then none else some j
  | fuel + 1, j =>
    if i ≤ j then
      match cond j with
      | none => none
      | some true => scanDown cond i fuel (j - 1)
      | some false => some j
    else some j

/-- The loop `for { scan up; scan down; if i > j { break }; data.Swap(i, j); i++; j-- }`
shared by `partition_func` and `partitionEqual_func`; returns the data and the final
`i` and `j`. -/
def partition_loop (up down : List α → Nat → Option Bool) :
    Nat → Nat → Nat → List α → Option (List α × Nat × Nat)
  | 0, _, _, _ => none
  | fuel + 1, i, j, data =>
    match scanUp (up data) j (j + 1 - i) i with
    | none => none
    | some i1 =>
      match scanDown (down data) i1 (j + 1 - i1) j with
      | none => none
      | some j1 =>
        if j1 < i1 then some (data, i1, j1)
        else
          match Swap data i1 j1 with
          | none => none
          | some data1 => partition_loop up down fuel (i1 + 1) (j1 - 1) data1

/-- Go `partitionEqual_func`: partitions `data[a:b]` into elements equal to `data[pivot]`
followed by elements greater than `data[pivot]`. -/
def partitionEqual_func (less : α → α → Bool) (data : List α) (a b pivot : Nat) :
    Option (List α × Nat) :=
  match Swap data a pivot with
  | none => none
  | some data1 =>
    match partition_loop
        (fun d i => (Less less d a i).map not) (fun d j => Less less d a j)
        (b - a + 1) (a + 1) (b - 1) data1 with
    | none => none
    | some (data2, i, _) => some (data2, i)

/-- Go `partition_func`: one quicksort partition; returns the new pivot index and whether
the slice was already partitioned. -/
def partition_func (less : α → α → Bool) (data : List α) (a b pivot : Nat) :
    Option (List α × Nat × Bool) :=
  match Swap data a pivot with
  | none => none
  | some data1 =>
    let up : List α → Nat → Option Bool := fun d i => Less less d i a
    let down : List α → Nat → Option Bool := fun d j => (Less less d j a).map not
    match scanUp (up data1) (b - 1) (b - 1 - a) (a + 1) with
    | none => none
    | some i =>
      match scanDown (down data1) i (b - i) (b - 1) with
      | none => none
      | some j =>
        if j < i then
          match Swap data1 j a with
          | none => none
          | some data2 => some (data2, j, true)
        else
          match Swap data1 i j with
          | none => none
          | some data2 =>
            match partition_loop up down (b - a + 1) (i + 1) (j - 1) data2 with
            | none => none
            | some (data3, _, j1) =>
              match Swap data3 j1 a with
              | none => none
              | some data4 => some (data4, j1, false)

/-- Go `pdqsort_func`: sorts `data[a:b]`.  The `for` loop of the Go function is the
tail call, the two recursive calls of the Go function are the inner calls. -/
def pdqsort_func (less : α → α → Bool) :
    Nat → List α → Nat → Nat → Nat → Bool → Bool → Option (List α)
  | 0, _, _, _, _, _, _ => none
  | fuel + 1, data, a, b, limit, wasBalanced, wasPartitioned =>
    let length := b - a
    if length ≤ 12 then insertionSort_func less data a b
    else if limit = 0 then heapSort_func less data a b
    else
      let broken : Option (List α × Nat) :=
        if !wasBalanced then (breakPatterns_func data a b).map (fun d => (d, limit - 1))
        else some (data, limit)
      match broken with
      | none => none
      | some (data1, limit1) =>
        match choosePivot_func less data1 a b with
        | none => none
        | some (pivot0, hint0) =>
          let reversed : Option (List α × Nat × sortedHint) :=
            if hint0 = sortedHint.decreasingHint then
              (reverseRange_func data1 a b).map
                (fun d => (d, (b - 1) - (pivot0 - a), sortedHint.increasingHint))
            else some (data1, pivot0, hint0)
          match reversed with
          | none => none
          | some (data2, pivot, hint) =>
            let tried : Option (List α × Bool) :=
              if wasBalanced && wasPartitioned && hint = sortedHint.increasingHint then
                partialInsertionSort_func less data2 a b
              else some (data2, false)
            match tried with
            | none => none
            | some (data3, true) => some data3
            | some (data3, false) =>
              let dup : Option Bool :=
                if 0 < a then (Less less data3 (a - 1) pivot).map not else some false
              match dup with
              | none => none
              | some true =>
                match partitionEqual_func less data3 a b pivot with
                | none => none
                | some (data4, mid) =>
                  pdqsort_func less fuel data4 mid b limit1 wasBalanced wasPartitioned
              | some false =>
                match partition_func less data3 a b pivot with
                | none => none
                | some (data4, mid, alreadyPartitioned) =>
                  let leftLen := mid - a
                  let rightLen := b - mid
                  let balanceThreshold := length / 8
                  if leftLen < rightLen then
                    match pdqsort_func less fuel data4 a mid limit1 true true with
                    | none => none
                    | some data5 =>
                      pdqsort_func less fuel data5 (mid + 1) b limit1
                        (decide (balanceThreshold ≤ leftLen)) alreadyPartitioned
                  else
                    match pdqsort_func less fuel data4 (mid + 1) b limit1 true true with
                    | none => none
                    | some data5 =>
                      pdqsort_func less fuel data5 a mid limit1
                        (decide (balanceThreshold ≤ rightLen)) alreadyPartitioned

/-- Go `sort.Slice`: sorts the slice given the provided less function. -/
def Slice (less : α → α → Bool) (x : List α) : Option (List α) :=
  let length := x.length
  let limit := bitsLen length length
  pdqsort_func less (length + 1) x 0 length limit true true

end GoSort

/-! ## Go library values used by the program -/

namespace GoTime

/-- Go `time.Time` as decoded from JSON: an instant given by seconds and nanoseconds
(there is no monotonic clock reading on a decoded value). -/
structure Time where
  sec : Int
  nsec : Nat
  deriving DecidableEq

/-- Go `Time.After`: reports whether the instant `t` is after `u`. -/
def Time.After (t u : Time) : Bool :=
  decide (t.sec > u.sec) || (decide (t.sec = u.sec) && decide (t.nsec > u.nsec))

end GoTime

namespace Fmt

/-- An operand of `fmt.Sprintf`: the program passes strings (also of named string types)
and ints. -/
inductive Arg
  | str (s : String)
  | int (n : Int)
  deriving DecidableEq

/-- Output of the verb `%s` for an operand. -/
def Arg.verbS : Arg → List Char
  | Arg.str s => s.data
  | Arg.int n => "%!s(int=".data ++ (toString n).data ++ ")".data

/-- Output of the verb `%d` for an operand. -/
def Arg.verbD : Arg → List Char
  | Arg.int n => (toString n).data
  | Arg.str s => "%!d(string=".data ++ s.data ++ ")".data

/-- Go `fmt` on the format characters: the verbs `%s` and `%d` consume one operand each,
`%%` is a percent sign, every other character is copied.  This is what Go prints when the
operands match the verbs in number and kind, as in every call of the program; a verb
without operand prints Go's `MISSING` diagnostic, other verbs, flags and the diagnostic
for surplus operands are not modelled. -/
def doPrintf : List Char → List Arg → List Char
  | [], _ => []
  | '%' :: 's' :: rest, a :: args => a.verbS ++ doPrintf rest args
  | '%' :: 's' :: rest, [] => "%!s(MISSING)".data ++ doPrintf rest []
  | '%' :: 'd' :: rest, a :: args => a.verbD ++ doPrintf rest args
  | '%' :: 'd' :: rest, [] => "%!d(MISSING)".data ++ doPrintf rest []
  | '%' :: '%' :: rest, args => '%' :: doPrintf rest args
  | c :: rest, args => c :: doPrintf rest args

/-- Go `fmt.Sprintf`, for the verbs the program uses. -/
def Sprintf (format : String) (args : List Arg) : String :=
  String.mk (doPrintf format.data args)

end Fmt

namespace Lipgloss

/-- A lipgloss `Style`; the program only sets the foreground colour. -/
structure Style where
  foreground : Option String
  deriving DecidableEq

/-- Go `lipgloss.NewStyle()`. -/
def NewStyle : Style := { foreground := none }

/-- Go `Style.Foreground(lipgloss.Color(c))`. -/
def Style.Foreground (s : Style) (c : String) : Style := { s with foreground := some c }

/-- What `Render` returns, before the terminal encoding of the colour (which depends on
the colour profile of the terminal): the style, and the text as `Render` lays it out. -/
structure Rendered where
  style : Style
  text : String
  deriving DecidableEq

/-- Go `Style.maybeConvertTabs` with the default tab width of four: every tab becomes four
spaces. -/
def convertTabs : List Char → List Char
  | [] => []
  | c :: cs =>
    if c = Char.ofNat 9 then ' ' :: ' ' :: ' ' :: ' ' :: convertTabs cs else c :: convertTabs cs

/-- The replacement of every carriage return and line feed by a line feed that `Render`
does, Go `strings.ReplaceAll(str, "\r\n", "\n")`. -/
def dropCarriageReturns : List Char → List Char
  | [] => []
  | c :: cs =>
    if c = Char.ofNat 13 ∧ cs.head? = some (Char.ofNat 10) then dropCarriageReturns cs
    else c :: dropCarriageReturns cs

/-- Go `strings.Split(str, "\n")`. -/
def splitLines : List Char → List (List Char)
  | [] => [[]]
  | c :: cs =>
    if c = Char.ofNat 10 then [] :: splitLines cs
    else
      match splitLines cs with
      | [] => [[c]]
      | l :: ls => (c :: l) :: ls

/-- The padding of `alignTextHorizontal` for the left alignment: a line shorter than the
widest gets spaces at its end.  The width of a line is taken as its number of characters,
its width in terminal cells when the characters are printable ASCII. -/
def padLine (widest : Nat) (l : List Char) : List Char :=
  l ++ List.replicate (widest - l.length) ' '

/-- Go `strings.Join(lines, "\n")`. -/
def joinLines : List (List Char) → List Char
  | [] => []
  | [l] => l
  | l :: ls => l ++ Char.ofNat 10 :: joinLines ls

/-- The text of `Style.Render` for a style with a foreground colour only: tabs become
spaces, carriage returns before line feeds go, and when there are several lines they are
padded to the width of the widest. -/
def renderText (str : String) : String :=
  let lines := splitLines (dropCarriageReturns (convertTabs str.data))
  match lines with
  | [l] => String.mk l
  | _ =>
    let widest := (lines.map List.length).foldl max 0
    String.mk (joinLines (lines.map (padLine widest)))

/-- Go `Style.Render`. -/
def Style.Render (s : Style) (str : String) : Rendered :=
  { style := s, text := renderText str }

end Lipgloss

/-! ## Package `data` (src/data/issueapi.go) -/

namespace Data

/-- Modelled from the spec: the owning repository of an issue, with its archival flag
(the declaration is in a file of package `data` that is not part of the sources read). -/
structure Repository where
  NameWithOwner : String
  IsArchived : Bool
  deriving DecidableEq

/-- Modelled from the spec: `IssueData`, "owning repository, number, title, status,
last-update timestamp, archival flag of its owning repository". -/
structure IssueData where
  Number : Int
  Title : String
  State : String
  UpdatedAt : GoTime.Time
  Repository : Repository
  deriving DecidableEq

/-- Modelled from the spec: `PageInfo`, the "opaque endCursor/hasNextPage pagination
descriptor". -/
structure PageInfo where
  HasNextPage : Bool
  EndCursor : String
  deriving DecidableEq

/-- Modelled from the spec: `IssuesResponse`, with the three fields `FetchIssues` fills. -/
structure IssuesResponse where
  Issues : List IssueData
  TotalCount : Int
  PageInfo : PageInfo
  deriving DecidableEq

/-- Go `StackData` of package `data`. -/
structure StackData where
  StackID : Int
  Repository : String
  Path : String
  DefaultBranch : String
  MetaID : String
  MetaName : String
  MetaDescription : String
  MetaTags : List String
  Status : String
  CreatedAt : GoTime.Time
  UpdatedAt : GoTime.Time
  SeenAt : GoTime.Time
  DeploymentStatus : String
  DriftStatus : String
  Draft : Bool
  deriving DecidableEq

/-- Go `StackData.GetTitle`. -/
def StackData.GetTitle (data : StackData) : String := data.MetaName

/-- Go `StackData.GetRepoName`. -/
def StackData.GetRepoName (data : StackData) : String := data.Repository

/-- Go `StackData.GetNumber`. -/
def StackData.GetNumber (data : StackData) : Int := data.StackID

/-- Go `StackData.GetUrl`. -/
def StackData.GetUrl (data : StackData) : String :=
  Fmt.Sprintf "https://cloud.terramate.io/o/RocketRene/stacks/%d" [Fmt.Arg.int data.StackID]

/-- Go `StackData.GetUpdatedAt`. -/
def StackData.GetUpdatedAt (data : StackData) : GoTime.Time := data.UpdatedAt

/-- Go `makeIssuesQuery`. -/
def makeIssuesQuery (query : String) : String :=
  Fmt.Sprintf "is:issue %s sort:updated" [Fmt.Arg.str query]

/-- One element of `queryResult.Search.Nodes`. -/
structure Node where
  Issue : IssueData
  deriving DecidableEq

/-- The anonymous struct `queryResult.Search` of `FetchIssues`. -/
structure Search where
  Nodes : List Node
  IssueCount : Int
  PageInfo : PageInfo
  deriving DecidableEq

/-- Conversion `graphql.Int(limit)`: `graphql.Int` is an `int32`. -/
def graphqlInt (limit : Int) : Int :=
  (limit + 2 ^ 31) % 2 ^ 32 - 2 ^ 31

/-- The map `variables` of `FetchIssues`; a nil `endCursor` pointer is `none`. -/
structure Variables where
  query : String
  limit : Int
  endCursor : Option String
  deriving DecidableEq

/-- The GraphQL client of `go-gh`: `Query` answers a named query with variables. -/
structure Client where
  Query : String → Variables → Except String Search

/-- The local `endCursor` of `FetchIssues`:
`var endCursor *string; if pageInfo != nil { endCursor = &pageInfo.EndCursor }`. -/
def endCursorOf (pageInfo : Option PageInfo) : Option String :=
  match pageInfo with
  | some p => some p.EndCursor
  | none => none

/-- The filter loop of `FetchIssues`:
`for _, node := range Nodes { if node.Issue.Repository.IsArchived { continue };
issues = append(issues, node.Issue) }`. -/
def appendUnarchived : List Node → List IssueData → List IssueData
  | [], issues => issues
  | node :: rest, issues =>
    if node.Issue.Repository.IsArchived then appendUnarchived rest issues
    else appendUnarchived rest (issues ++ [node.Issue])

/-- Go `FetchIssues`.  `defaultClient` is the result of `gh.DefaultGraphQLClient()`.
Returns the requests sent to the client (their variables) and the result of the call. -/
def FetchIssues (defaultClient : Except String Client) (query : String) (limit : Int)
    (pageInfo : Option PageInfo) : List Variables × Except String IssuesResponse :=
  match defaultClient with
  | Except.error err => ([], Except.error err)
  | Except.ok client =>
    let endCursor := endCursorOf pageInfo
    let vars : Variables :=
      { query := makeIssuesQuery query, limit := graphqlInt limit, endCursor := endCursor }
    match client.Query "SearchIssues" vars with
    | Except.error err => ([vars], Except.error err)
    | Except.ok search =>
      let issues := appendUnarchived search.Nodes []
      ([vars], Except.ok
        { Issues := issues, TotalCount := search.IssueCount, PageInfo := search.PageInfo })

end Data

/-! ## Package `stackssection` (src/ui/components/stackssection/stacks.go) -/

namespace Stackssection

/-- Go `StackItem`: a wrapper of `data.StackData` that is a list item. -/
structure StackItem where
  Data : Data.StackData
  deriving DecidableEq

/-- Go `StackItem.Title`. -/
def StackItem.Title (s : StackItem) : String := s.Data.MetaName

/-- Go `StackItem.Description`. -/
def StackItem.Description (s : StackItem) : String := s.Data.MetaDescription

/-- Go `StackItem.FilterValue`. -/
def StackItem.FilterValue (s : StackItem) : String := s.Title

end Stackssection

/-! ## Package `main` (src/poc/main.go) -/

namespace Poc

open GoTime

/-- Go `CredentialData`. -/
structure CredentialData where
  IDToken : String
  deriving DecidableEq

/-- Go `type StackStatus string`. -/
abbrev StackStatus := String
/-- Go `type DeploymentStatus string`. -/
abbrev DeploymentStatus := String
/-- Go `type DriftStatus string`. -/
abbrev DriftStatus := String

/-- Go `StatusAll`. -/
def StatusAll : StackStatus := "all"
/-- Go `StatusUnhealthy`. -/
def StatusUnhealthy : StackStatus := "unhealthy"
/-- Go `StatusHealthy`. -/
def StatusHealthy : StackStatus := "healthy"
/-- Go `StatusDrifted`. -/
def StatusDrifted : StackStatus := "drifted"
/-- Go `StatusFailed`. -/
def StatusFailed : StackStatus := "failed"
/-- Go `StatusOK`. -/
def StatusOK : StackStatus := "ok"

/-- Go `DeploymentCanceled`. -/
def DeploymentCanceled : DeploymentStatus := "canceled"
/-- Go `DeploymentFailed`. -/
def DeploymentFailed : DeploymentStatus := "failed"
/-- Go `DeploymentOK`. -/
def DeploymentOK : DeploymentStatus := "ok"
/-- Go `DeploymentPending`. -/
def DeploymentPending : DeploymentStatus := "pending"
/-- Go `DeploymentRunning`. -/
def DeploymentRunning : DeploymentStatus := "running"

/-- Go `DriftOK`. -/
def DriftOK : DriftStatus := "ok"
/-- Go `DriftDrifted`. -/
def DriftDrifted : DriftStatus := "drifted"
/-- Go `DriftFailed`. -/
def DriftFailed : DriftStatus := "failed"

/-- Go `Stack`. -/
structure Stack where
  StackID : Int
  Repository : String
  Path : String
  DefaultBranch : String
  MetaID : String
  MetaName : String
  MetaDescription : String
  MetaTags : List String
  Status : StackStatus
  CreatedAt : Time
  UpdatedAt : Time
  SeenAt : Time
  DeploymentStatus : DeploymentStatus
  DriftStatus : DriftStatus
  Draft : Bool
  deriving DecidableEq

/-- The anonymous struct `PaginatedResult` of `StackAPIResponse`. -/
structure PaginatedResult where
  Total : Int
  Page : Int
  PerPage : Int
  deriving DecidableEq

/-- Go `StackAPIResponse`. -/
structure StackAPIResponse where
  Stacks : List Stack
  PaginatedResult : PaginatedResult
  deriving DecidableEq

/-- Go `key.Binding`, as built by `key.NewBinding(key.WithKeys, key.WithHelp)`. -/
structure Binding where
  keys : List String
  help : String × String
  deriving DecidableEq

/-- Go `KeyMap`. -/
structure KeyMap where
  Open : Binding
  deriving DecidableEq

/-- Go `newKeyMap`. -/
def newKeyMap : KeyMap :=
  { Open := { keys := ["o"], help := ("o", "open in browser") } }

/-- Go `red`. -/
def red : String → Lipgloss.Rendered := (Lipgloss.NewStyle.Foreground "#FF0000").Render
/-- Go `green`. -/
def green : String → Lipgloss.Rendered := (Lipgloss.NewStyle.Foreground "#00FF00").Render
/-- Go `yellow`. -/
def yellow : String → Lipgloss.Rendered := (Lipgloss.NewStyle.Foreground "#FFFF00").Render
/-- Go `pathStyle`. -/
def pathStyle : String → Lipgloss.Rendered := (Lipgloss.NewStyle.Foreground "#FF00FF").Render
/-- Go `repoStyle`. -/
def repoStyle : String → Lipgloss.Rendered := (Lipgloss.NewStyle.Foreground "#C0C0C0").Render

/-- Go `Stack.FilterValue`. -/
def Stack.FilterValue (s : Stack) : String :=
  Fmt.Sprintf "%s %s %s" [Fmt.Arg.str s.MetaName, Fmt.Arg.str s.Status, Fmt.Arg.str s.DriftStatus]

/-- Go `Stack.colorizeStatus`. -/
def Stack.colorizeStatus (_s : Stack) (status : Poc.StackStatus) : Lipgloss.Rendered :=
  if status = StatusOK then green status
  else if status = StatusFailed then red status
  else yellow status

/-- Go `Stack.colorizeDriftStatus`. -/
def Stack.colorizeDriftStatus (_s : Stack) (status : Poc.DriftStatus) : Lipgloss.Rendered :=
  if status = DriftOK then green status
  else if status = DriftDrifted then red status
  else yellow status

/-- Go `Stack.Title`.  `enc` is the terminal encoding of a rendered text, the string that
lipgloss returns from `Render`. -/
def Stack.Title (enc : Lipgloss.Rendered → String) (s : Stack) : String :=
  let statusText := s.colorizeStatus s.Status
  let driftStatusText := s.colorizeDriftStatus s.DriftStatus
  Fmt.Sprintf "%s\tStatus:%s\tDrift:%s"
    [Fmt.Arg.str s.MetaName, Fmt.Arg.str (enc statusText), Fmt.Arg.str (enc driftStatusText)]

/-- Go `strings.TrimPrefix` on characters. -/
def trimPrefixChars : List Char → List Char → List Char → List Char
  | _, [], rest => rest
  | whole, _ :: _, [] => whole
  | whole, p :: ps, c :: cs => if p = c then trimPrefixChars whole ps cs else whole

/-- Go `strings.TrimPrefix`. -/
def TrimPrefix (s pre : String) : String :=
  String.mk (trimPrefixChars s.data pre.data s.data)

/-- Go `Stack.Description`. -/
def Stack.Description (enc : Lipgloss.Rendered → String) (s : Stack) : String :=
  let trimmedRepo := TrimPrefix s.Repository "github.com/"
  Fmt.Sprintf "Repo: %s Path: %s"
    [Fmt.Arg.str (enc (repoStyle trimmedRepo)), Fmt.Arg.str (enc (pathStyle s.Path))]

/-- Go `http.Request`, with the parts the program sets. -/
structure Request where
  method : String
  url : String
  header : List (String × String)
  deriving DecidableEq

/-- Go `http.NewRequest` with a nil body; the validation of method and URL is not
modelled (both are constants of the program). -/
def NewRequest (method url : String) : Except String Request :=
  Except.ok { method := method, url := url, header := [] }

/-- Go `Header.Set`. -/
def Request.HeaderSet (r : Request) (k v : String) : Request :=
  { r with header := (k, v) :: r.header.filter (fun kv => kv.1 ≠ k) }

/-- What the program does to the outside world, in order; `panic` is the run-time panic
that ends the process. -/
inductive Effect
  | httpDo (req : Request)
  | printf (s : String)
  | openURL (url : String)
  | logPrintf (s : String)
  | logFatalf (s : String)
  | panic (s : String)
  deriving DecidableEq

/-- The outside world as seen by the program during a run: the home directory, the file
system, the JSON decoders, the HTTP transport and the browser launcher. -/
structure Env where
  UserHomeDir : Except String String
  Join : List String → String
  ReadFile : String → Except String String
  UnmarshalCredentials : String → Except String CredentialData
  Do : Request → Except String String
  DecodeStacks : String → Except String StackAPIResponse
  OpenURL : String → Except String Unit

/-- Go `LoadCredentials`. -/
def LoadCredentials (env : Env) (filepath : String) : Except String String :=
  match env.ReadFile filepath with
  | Except.error err => Except.error err
  | Except.ok data =>
    match env.UnmarshalCredentials data with
    | Except.error err => Except.error err
    | Except.ok creds => Except.ok creds.IDToken

/-- The `less` closure passed to `sort.Slice` by `fetchStacks`. -/
def updatedAfter (x y : Stack) : Bool := x.UpdatedAt.After y.UpdatedAt

/-- Go `fetchStacks`: returns the effects performed and the result.  A panic of
`sort.Slice` (index out of range) would end the program; it is reported as an error. -/
def fetchStacks (env : Env) (token : String) : List Effect × Except String (List Stack) :=
  match NewRequest "GET" "http://api.terramate.io/v1/stacks/5fbadfe9-b35b-4352-aadf-b03ee7a0a0c0" with
  | Except.error err => ([], Except.error err)
  | Except.ok request0 =>
    let request := request0.HeaderSet "Authorization" ("Bearer " ++ token)
    match env.Do request with
    | Except.error err => ([Effect.httpDo request], Except.error err)
    | Except.ok body =>
      match env.DecodeStacks body with
      | Except.error err => ([Effect.httpDo request], Except.error err)
      | Except.ok apiResponse =>
        match GoSort.Slice updatedAfter apiResponse.Stacks with
        | none => ([Effect.httpDo request], Except.error "panic: sort.Slice")
        | some sorted => ([Effect.httpDo request], Except.ok sorted)

/-- Go `tea.Msg`, with the two message types `Update` distinguishes. -/
inductive Msg
  | WindowSizeMsg (Width Height : Int)
  | KeyMsg (str : String)
  | other (tag : Nat)
  deriving DecidableEq

/-- Whether a message is a `tea.WindowSizeMsg`. -/
def Msg.isWindowSize : Msg → Bool
  | Msg.WindowSizeMsg _ _ => true
  | _ => false

/-- Whether a message is a `tea.KeyMsg`. -/
def Msg.isKey : Msg → Bool
  | Msg.KeyMsg _ => true
  | _ => false

/-- The bubbles `list.Model` as the program uses it: `L` is the list model, `Cmd` the
commands it returns.  `zero` is the zero value of `list.Model`, the list of a `Model` that
`initList` has not filled.  `Update` is `none` when `list.Model.Update` panics, which it
does on the zero value for a size or key message: the zero value has no delegate, and
`Update` calls it. -/
structure ListLib (L Cmd : Type) where
  zero : L
  New : List Stack → Int → Int → L
  setTitle : L → String → L
  setAdditionalShortHelpKeys : L → List Binding → L
  Update : L → Msg → Option (L × Option Cmd)
  SelectedItem : L → Option Stack
  View : L → String
  zero_panics : ∀ msg : Msg, (msg.isWindowSize || msg.isKey) = true → Update zero msg = none

/-- Go `Model`. -/
structure Model (L : Type) where
  list : L
  err : Option String
  keys : KeyMap

/-- Go `New`. -/
def New {L Cmd : Type} (lib : ListLib L Cmd) : Model L :=
  { list := lib.zero, err := none, keys := newKeyMap }

/-- The loop of `initList`: `for _, stack := range stacks { items = append(items, stack) }`. -/
def appendItems : List Stack → List Stack → List Stack
  | [], items => items
  | stack :: rest, items => appendItems rest (items ++ [stack])

/-- Go `Model.initList`. -/
def Model.initList {L Cmd : Type} (env : Env) (lib : ListLib L Cmd) (m : Model L)
    (width height : Int) (token : String) : List Effect × Model L :=
  let m1 := { m with keys := newKeyMap }
  match fetchStacks env token with
  | (effects, Except.error err) => (effects, { m1 with err := some err })
  | (effects, Except.ok sorted) =>
    let items := appendItems sorted []
    let list1 := lib.New items width height
    let list2 := lib.setTitle list1 "Terramate Cloud Stacks"
    let list3 := lib.setAdditionalShortHelpKeys list2 [m1.keys.Open]
    (effects, { m1 with list := list3 })

/-- Go `Model.Init`. -/
def Model.Init {L Cmd : Type} (_m : Model L) : Option Cmd := none

/-- Go `Model.Update`: the effects performed, and the new model with the command of the
list, or `none` when the process ended, by `log.Fatalf` or by the panic of
`m.list.Update(msg)` on a list that was never filled. -/
def Model.Update {L Cmd : Type} (env : Env) (lib : ListLib L Cmd) (m : Model L) (msg : Msg) :
    List Effect × Option (Model L × Option Cmd) :=
  let handled : List Effect × Option (Model L) :=
    match msg with
    | Msg.WindowSizeMsg Width Height =>
      match env.UserHomeDir with
      | Except.error err =>
        ([Effect.logFatalf ("Fehler beim Abrufen des Home-Verzeichnisses: " ++ err)], none)
      | Except.ok homeDir =>
        let credentialPath := env.Join [homeDir, ".terramate.d", "credentials.tmrc.json"]
        let loaded : List Effect × String :=
          match LoadCredentials env credentialPath with
          | Except.error err => ([Effect.printf ("Could not load Credentials " ++ err)], "")
          | Except.ok token => ([], token)
        let inited := m.initList env lib Width Height loaded.2
        (loaded.1 ++ inited.1, some inited.2)
    | Msg.KeyMsg str =>
      if str = "o" then
        match lib.SelectedItem m.list with
        | some selectedItem =>
          let url := Fmt.Sprintf "https://cloud.terramate.io/o/terramate-demo/stacks/%d"
            [Fmt.Arg.int selectedItem.StackID]
          match env.OpenURL url with
          | Except.error err =>
            ([Effect.openURL url, Effect.logPrintf ("Failed to open URL: " ++ err)], some m)
          | Except.ok _ => ([Effect.openURL url], some m)
        | none => ([], some m)
      else ([], some m)
    | Msg.other _ => ([], some m)
  match handled with
  | (effects, none) => (effects, none)
  | (effects, some m1) =>
    match lib.Update m1.list msg with
    | none =>
      (effects ++ [Effect.panic "invalid memory address or nil pointer dereference"], none)
    | some updated => (effects, some ({ m1 with list := updated.1 }, updated.2))

/-- Go `Model.View`. -/
def Model.View {L Cmd : Type} (lib : ListLib L Cmd) (m : Model L) : String :=
  lib.View m.list

/-- What a run leaves: the effects performed, the messages `Update` was called on, and
the last model, or `none` when the process ended. -/
structure Run (L : Type) where
  effects : List Effect
  handled : List Msg
  model : Option (Model L)

/-- The event loop of bubbletea for a given sequence of messages: `Update` is called on
each message in order until the process ends. -/
def run {L Cmd : Type} (env : Env) (lib : ListLib L Cmd) : Model L → List Msg → Run L
  | m, [] => { effects := [], handled := [], model := some m }
  | m, msg :: rest =>
    match Model.Update env lib m msg with
    | (effects, none) => { effects := effects, handled := [msg], model := none }
    | (effects, some (m1, _)) =>
      let later := run env lib m1 rest
      { effects := effects ++ later.effects, handled := msg :: later.handled,
        model := later.model }

/-- The stack fetches among the effects: the HTTP requests sent. -/
def fetches (effects : List Effect) : List Request :=
  effects.filterMap (fun e => match e with
    | Effect.httpDo req => some req
    | _ => none)

end Poc

/-! ## Concrete values used to exhibit behaviours -/

namespace Poc

/-- A stack record with the given identifier, statuses and update time (in seconds). -/
def mkStack (id : Int) (name : String) (status : StackStatus)
    (deployment : Poc.DeploymentStatus) (drift : Poc.DriftStatus) (updated : Int) : Stack :=
  { StackID := id, Repository := "github.com/org/repo", Path := "/stacks/" ++ name,
    DefaultBranch := "main", MetaID := name, MetaName := name, MetaDescription := "",
    MetaTags := [], Status := status,
    CreatedAt := { sec := 0, nsec := 0 }, UpdatedAt := { sec := updated, nsec := 0 },
    SeenAt := { sec := 0, nsec := 0 },
    DeploymentStatus := deployment, DriftStatus := drift, Draft := false }

/-- An inventory response of three stacks, the newest last. -/
def sampleResponse : StackAPIResponse :=
  { Stacks := [mkStack 1 "a" StatusOK DeploymentOK DriftOK 10,
               mkStack 2 "b" StatusFailed DeploymentFailed DriftDrifted 30,
               mkStack 3 "c" StatusHealthy DeploymentPending DriftFailed 20],
    PaginatedResult := { Total := 3, Page := 1, PerPage := 10 } }

/-- An environment in which every step of the fetch succeeds and the inventory is
`sampleResponse`. -/
def sampleEnv : Env :=
  { UserHomeDir := Except.ok "/home/op",
    Join := fun parts => String.intercalate "/" parts,
    ReadFile := fun _ => Except.ok "creds",
    UnmarshalCredentials := fun _ => Except.ok { IDToken := "tok" },
    Do := fun _ => Except.ok "body",
    DecodeStacks := fun _ => Except.ok sampleResponse,
    OpenURL := fun _ => Except.ok () }

/-- A list model that is `none` until it is filled, then keeps its items and always
selects the first one; its `Update` panics on the unfilled list and does nothing else. -/
def sampleLib : ListLib (Option (List Stack)) Unit :=
  { zero := none,
    New := fun items _ _ => some items,
    setTitle := fun l _ => l,
    setAdditionalShortHelpKeys := fun l _ => l,
    Update := fun l _ => l.map (fun items => (some items, none)),
    SelectedItem := fun l => l.bind List.head?,
    View := fun l => String.intercalate "\n" ((l.getD []).map (fun s => s.MetaName)),
    zero_panics := fun _ _ => rfl }

/-- An environment like `sampleEnv` whose transport fails. -/
def failingEnv : Env :=
  { sampleEnv with Do := fun _ => Except.error "connection refused" }

/-- An inventory response of four stacks, two updated at second 10 and two at second 30,
interleaved. -/
def pairedResponse : StackAPIResponse :=
  { Stacks := [mkStack 1 "a" StatusOK DeploymentOK DriftOK 10,
               mkStack 2 "b" StatusFailed DeploymentFailed DriftDrifted 30,
               mkStack 3 "c" StatusHealthy DeploymentPending DriftFailed 10,
               mkStack 4 "d" StatusOK DeploymentOK DriftOK 30],
    PaginatedResult := { Total := 4, Page := 1, PerPage := 10 } }

/-- An environment whose inventory is `pairedResponse`. -/
def pairedEnv : Env :=
  { sampleEnv with DecodeStacks := fun _ => Except.ok pairedResponse }

/-- Thirteen stacks in response order: identifiers 0 to 12, all updated at second 1 but the
last one, updated at second 2. -/
def tiedStacks : List Stack :=
  (List.range 12).map (fun i => mkStack (Int.ofNat i) "s" StatusOK DeploymentOK DriftOK 1)
    ++ [mkStack 12 "s" StatusOK DeploymentOK DriftOK 2]

/-- An environment whose inventory is `tiedStacks`. -/
def tiedEnv : Env :=
  { sampleEnv with
    DecodeStacks := fun _ =>
      Except.ok { Stacks := tiedStacks, PaginatedResult := { Total := 13, Page := 1, PerPage := 20 } } }

end Poc

namespace Data

/-- An issue of a repository with the given archival flag. -/
def mkIssue (number : Int) (archived : Bool) : IssueData :=
  { Number := number, Title := "t", State := "OPEN", UpdatedAt := { sec := 0, nsec := 0 },
    Repository := { NameWithOwner := "org/repo", IsArchived := archived } }

/-- A search answer with an archived issue between two live ones. -/
def sampleSearch : Search :=
  { Nodes := [{ Issue := mkIssue 1 false }, { Issue := mkIssue 2 true }, { Issue := mkIssue 3 false }],
    IssueCount := 3,
    PageInfo := { HasNextPage := true, EndCursor := "Y3Vyc29yOjM=" } }

/-- A client that answers every query with `sampleSearch`. -/
def sampleClient : Client :=
  { Query := fun _ _ => Except.ok sampleSearch }

end Data

/-! ## Vocabulary of the correctness proof of `sort.Slice` -/

namespace GoSort

variable {α : Type}

/-- The conditions on the `less` function under which `sort.Slice` sorts: a strict weak
order. -/
structure StrictWeak (less : α → α → Bool) : Prop where
  irrefl : ∀ x, less x x = false
  trans : ∀ x y z, less x y = true → less y z = true → less x z = true
  incomp : ∀ x y z, less x y = false → less y z = false → less x z = false

/-- The elements of `d[a:b]`. -/
def slice (d : List α) (a b : Nat) : List α := (d.drop a).take (b - a)

/-- The slice `d1` is `d` with the elements of `d[a:b]` rearranged, the rest untouched. -/
def Seg (a b : Nat) (d d1 : List α) : Prop :=
  d1.length = d.length ∧ (∀ k, k < a ∨ b ≤ k → d1[k]? = d[k]?) ∧ d1.Perm d

/-- Every element of `d[a:b]` satisfies `P`. -/
def AllIn (d : List α) (a b : Nat) (P : α → Prop) : Prop :=
  ∀ k x, a ≤ k → k < b → d[k]? = some x → P x

/-- No element of `d[a:b]` is `less` than an element before it in `d[a:b]`. -/
def SortedOn (less : α → α → Bool) (d : List α) (a b : Nat) : Prop :=
  ∀ i j x y, a ≤ i → i < j → j < b → d[i]? = some x → d[j]? = some y → less y x = false

/-- When `d[a:b]` does not start the slice, no element of it is `less` than the element
just before it. -/
def Lower (less : α → α → Bool) (d : List α) (a b : Nat) : Prop :=
  ∀ p, 0 < a → d[a - 1]? = some p → AllIn d a b (fun x => less x p = false)

/-- Stability: `d1` lists every family of mutually incomparable elements in the order
of `d`. -/
def Stab (less : α → α → Bool) (d d1 : List α) : Prop :=
  ∀ q : α → Bool, (∀ x y, q x = true → q y = true → less x y = false) →
    d1.filter q = d.filter q

/-- In the heap at `d[first:first+hi]`, no node from `lo` on is `less` than a child. -/
def HeapFrom (less : α → α → Bool) (d : List α) (first lo hi : Nat) : Prop :=
  ∀ k c x y, lo ≤ k → (c = 2 * k + 1 ∨ c = 2 * k + 2) → c < hi →
    d[first + k]? = some x → d[first + c]? = some y → less x y = false

/-- The heap condition from `lo` on, but for the node `r` that is being sifted down;
the parent of `r` is not `less` than the children of `r`. -/
def HeapExcept (less : α → α → Bool) (d : List α) (first lo hi r : Nat) : Prop :=
  (∀ k c x y, lo ≤ k → k ≠ r → (c = 2 * k + 1 ∨ c = 2 * k + 2) → c < hi →
    d[first + k]? = some x → d[first + c]? = some y → less x y = false) ∧
  (∀ p c x y, lo ≤ p → (r = 2 * p + 1 ∨ r = 2 * p + 2) → (c = 2 * r + 1 ∨ c = 2 * r + 2) →
    c < hi → d[first + p]? = some x → d[first + c]? = some y → less x y = false)

end GoSort

namespace Poc

/-- Stability of a result `out` with respect to the raw response `raw`: for every update
time, the stacks updated at that time appear in `out` in their order in `raw`. -/
def StableByUpdatedAt (raw out : List Stack) : Prop :=
  ∀ t : GoTime.Time, out.filter (fun s => decide (s.UpdatedAt = t)) =
    raw.filter (fun s => decide (s.UpdatedAt = t))

/-- The request `fetchStacks` sends for a token. -/
def stacksRequest (token : String) : Request :=
  { method := "GET",
    url := "http://api.terramate.io/v1/stacks/5fbadfe9-b35b-4352-aadf-b03ee7a0a0c0",
    header := [("Authorization", "Bearer " ++ token)] }

/-- A stack of deployment status ok and health status healthy. -/
def deployedOk : Stack := mkStack 1 "a" StatusHealthy DeploymentOK DriftOK 0
/-- A stack of deployment status failed and health status healthy. -/
def deployedFailed : Stack := mkStack 2 "b" StatusHealthy DeploymentFailed DriftOK 0
/-- A stack of deployment status pending and health status healthy. -/
def deployedPending : Stack := mkStack 3 "c" StatusHealthy DeploymentPending DriftOK 0

end Poc

namespace Poc

/-- The stacks of `tiedStacks` in the order of identifiers 12, 6, 2, 3, 4, 5, 0, 7, 8, 9,
10, 11, 1. -/
def tiedSorted : List Stack :=
  [12, 6, 2, 3, 4, 5, 0, 7, 8, 9, 10, 11, 1].map
    (fun i => mkStack i "s" StatusOK DeploymentOK DriftOK (if i = 12 then 2 else 1))

end Poc

namespace Poc

/-- A stack of status ok. -/
def statusOk : Stack := mkStack 1 "a" "ok" DeploymentOK DriftOK 0
/-- A stack of status failed. -/
def statusFailed : Stack := mkStack 2 "b" "failed" DeploymentOK DriftOK 0
/-- A stack of status pending. -/
def statusPending : Stack := mkStack 3 "c" "pending" DeploymentOK DriftOK 0

/-- The terminal encoding of a terminal without colours: the text alone. -/
def plainText (r : Lipgloss.Rendered) : String := r.text

end Poc

/-! # Theorems -/

namespace GoSort

variable {α : Type}

theorem exists_getElem? {d : List α} {i : Nat} (h : i < d.length) : ∃ x, d[i]? = some x :=
  ⟨d[i], List.getElem?_eq_getElem h⟩

theorem lt_of_getElem? {d : List α} {i : Nat} {x : α} (h : d[i]? = some x) : i < d.length := by
  rcases List.getElem?_eq_some.mp h with ⟨h1, _⟩
  exact h1

theorem Less_some {less : α → α → Bool} {d : List α} {i j : Nat} {x y : α}
    (hx : d[i]? = some x) (hy : d[j]? = some y) : Less less d i j = some (less x y) := by
  simp [Less, hx, hy]

theorem perm_cons_set {x y : α} : ∀ (t : List α) (j : Nat), t[j]? = some y →
    (y :: t.set j x).Perm (x :: t)
  | [], j, h => by simp at h
  | h' :: t', 0, h => by
    simp at h
    subst h
    simpa using List.Perm.swap x h' t'
  | h' :: t', j + 1, h => by
    simp at h
    have ih := perm_cons_set (x := x) t' j h
    calc (y :: (h' :: t').set (j + 1) x).Perm (h' :: y :: t'.set j x) := by
          simpa using List.Perm.swap h' y (t'.set j x)
      _ |>.Perm (h' :: x :: t') := List.Perm.cons h' ih
      _ |>.Perm (x :: h' :: t') := List.Perm.swap x h' t'

theorem set_set_perm_lt {x y : α} : ∀ (d : List α) (i j : Nat), i < j →
    d[i]? = some x → d[j]? = some y → ((d.set i y).set j x).Perm d
  | [], i, j, _, hx, _ => by simp at hx
  | h :: t, 0, j + 1, _, hx, hy => by
    simp at hx hy
    subst hx
    simpa using perm_cons_set t j hy
  | h :: t, i + 1, j + 1, hij, hx, hy => by
    simp at hx hy
    simpa using set_set_perm_lt t i j (by omega) hx hy

theorem set_set_perm {x y : α} (d : List α) (i j : Nat)
    (hx : d[i]? = some x) (hy : d[j]? = some y) : ((d.set i y).set j x).Perm d := by
  rcases Nat.lt_trichotomy i j with h | h | h
  · exact set_set_perm_lt d i j h hx hy
  · subst h
    rw [hx] at hy
    cases hy
    have : (d.set i x).set i x = d := by
      apply List.ext_getElem?
      intro n
      simp only [List.getElem?_set, List.length_set]
      have := lt_of_getElem? hx
      split
      · subst_vars; simp [this, hx]
      · rfl
    rw [this]
  · rw [List.set_comm _ _ _ (by omega)]
    exact set_set_perm_lt d j i h hy hx

/-- What `data.Swap(i, j)` does when both indices are in range. -/
theorem Swap_spec {d : List α} {i j : Nat} (hi : i < d.length) (hj : j < d.length) :
    ∃ d1, Swap d i j = some d1 ∧ d1.length = d.length ∧ d1.Perm d ∧
      ∀ k, d1[k]? = if k = i then d[j]? else if k = j then d[i]? else d[k]? := by
  obtain ⟨x, hx⟩ := exists_getElem? hi
  obtain ⟨y, hy⟩ := exists_getElem? hj
  refine ⟨(d.set i y).set j x, by simp [Swap, hx, hy], by simp, set_set_perm d i j hx hy, ?_⟩
  intro k
  simp only [List.getElem?_set, List.length_set]
  by_cases h1 : k = i
  · subst h1
    by_cases h2 : j = k
    · subst h2; simp [hi, hx]
    · simp [h2, hi, hy]
  · by_cases h2 : k = j
    · subst h2; simp [h1, hj, hx]
    · rw [if_neg (by omega), if_neg (by omega), if_neg h1, if_neg h2]

/-- The three reading rules after `data.Swap(i, j)`. -/
theorem Swap_spec3 {d : List α} {i j : Nat} (hi : i < d.length) (hj : j < d.length) :
    ∃ d1, Swap d i j = some d1 ∧ d1.length = d.length ∧ d1.Perm d ∧
      (∀ k, d1[k]? = if k = i then d[j]? else if k = j then d[i]? else d[k]?) ∧
      d1[i]? = d[j]? ∧ d1[j]? = d[i]? ∧ (∀ k, k ≠ i → k ≠ j → d1[k]? = d[k]?) := by
  obtain ⟨d1, h1, h2, h3, h4⟩ := Swap_spec hi hj
  refine ⟨d1, h1, h2, h3, h4, ?_, ?_, ?_⟩
  · rw [h4, if_pos rfl]
  · rw [h4]
    by_cases h : j = i
    · rw [if_pos h, h]
    · rw [if_neg h, if_pos rfl]
  · intro k hk1 hk2
    rw [h4, if_neg hk1, if_neg hk2]

theorem Seg_of_swap {a b i j : Nat} {d d1 : List α} (hl : d1.length = d.length)
    (hp : d1.Perm d)
    (hk : ∀ k, d1[k]? = if k = i then d[j]? else if k = j then d[i]? else d[k]?)
    (hia : a ≤ i) (hib : i < b) (hja : a ≤ j) (hjb : j < b) : Seg a b d d1 :=
  ⟨hl, fun k hk' => by rw [hk, if_neg (by omega), if_neg (by omega)], hp⟩

theorem Seg.seg_refl (a b : Nat) (d : List α) : Seg a b d d :=
  ⟨rfl, fun _ _ => rfl, List.Perm.refl d⟩

theorem Seg.seg_trans {a b : Nat} {d d1 d2 : List α} (h1 : Seg a b d d1) (h2 : Seg a b d1 d2) :
    Seg a b d d2 :=
  ⟨h2.1.trans h1.1, fun k hk => (h2.2.1 k hk).trans (h1.2.1 k hk), h2.2.2.trans h1.2.2⟩

theorem Seg.seg_mono {a b a1 b1 : Nat} {d d1 : List α} (h : Seg a1 b1 d d1) (ha : a ≤ a1)
    (hb : b1 ≤ b) : Seg a b d d1 :=
  ⟨h.1, fun k hk => h.2.1 k (by omega), h.2.2⟩

theorem getElem?_slice {d : List α} {a b k : Nat} :
    (slice d a b)[k]? = if k < b - a then d[a + k]? else none := by
  simp only [slice, List.getElem?_take, List.getElem?_drop]

theorem mem_slice_iff {d : List α} {a b : Nat} {x : α} :
    x ∈ slice d a b ↔ ∃ k, a ≤ k ∧ k < b ∧ d[k]? = some x := by
  rw [List.mem_iff_getElem?]
  constructor
  · rintro ⟨n, hn⟩
    rw [getElem?_slice] at hn
    split at hn
    · exact ⟨a + n, by omega, by omega, hn⟩
    · cases hn
  · rintro ⟨k, h1, h2, h3⟩
    refine ⟨k - a, ?_⟩
    rw [getElem?_slice, if_pos (by omega)]
    rw [show a + (k - a) = k by omega]
    exact h3

theorem split3 (d : List α) {a b : Nat} (hab : a ≤ b) :
    d = d.take a ++ slice d a b ++ d.drop b := by
  have h1 := (List.take_append_drop a d).symm
  have h2 := (List.take_append_drop (b - a) (d.drop a)).symm
  rw [List.drop_drop, show a + (b - a) = b by omega] at h2
  calc d = d.take a ++ d.drop a := h1
    _ = d.take a ++ (slice d a b ++ d.drop b) := by rw [slice, ← h2]
    _ = d.take a ++ slice d a b ++ d.drop b := by rw [List.append_assoc]

theorem Seg.slice_perm {a b : Nat} {d d1 : List α} (h : Seg a b d d1) (hab : a ≤ b) :
    (slice d1 a b).Perm (slice d a b) := by
  have e1 : d1.take a = d.take a := by
    apply List.ext_getElem?
    intro n
    simp only [List.getElem?_take]
    split
    · exact h.2.1 n (by omega)
    · rfl
  have e2 : d1.drop b = d.drop b := by
    apply List.ext_getElem?
    intro n
    simp only [List.getElem?_drop]
    exact h.2.1 _ (by omega)
  have hp := h.2.2
  rw [split3 d1 hab, split3 d hab, e1, e2] at hp
  exact (List.perm_append_left_iff _).mp ((List.perm_append_right_iff _).mp hp)

theorem AllIn_iff_slice {d : List α} {a b : Nat} {P : α → Prop} :
    AllIn d a b P ↔ ∀ x ∈ slice d a b, P x := by
  constructor
  · intro h x hx
    obtain ⟨k, h1, h2, h3⟩ := mem_slice_iff.mp hx
    exact h k x h1 h2 h3
  · intro h k x h1 h2 h3
    exact h x (mem_slice_iff.mpr ⟨k, h1, h2, h3⟩)

theorem Seg.allIn {a b : Nat} {d d1 : List α} {P : α → Prop} (h : Seg a b d d1)
    (hab : a ≤ b) (hP : AllIn d a b P) : AllIn d1 a b P := by
  rw [AllIn_iff_slice] at hP ⊢
  intro x hx
  exact hP x ((h.slice_perm hab).mem_iff.mp hx)

theorem AllIn.allIn_mono {d : List α} {a b a1 b1 : Nat} {P : α → Prop} (h : AllIn d a b P)
    (ha : a ≤ a1) (hb : b1 ≤ b) : AllIn d a1 b1 P :=
  fun k x h1 h2 h3 => h k x (by omega) (by omega) h3

theorem AllIn.imp {d : List α} {a b : Nat} {P Q : α → Prop} (h : AllIn d a b P)
    (hPQ : ∀ x, P x → Q x) : AllIn d a b Q :=
  fun k x h1 h2 h3 => hPQ x (h k x h1 h2 h3)

theorem Seg.lower {less : α → α → Bool} {a b : Nat} {d d1 : List α} (h : Seg a b d d1)
    (hab : a ≤ b) (hL : Lower less d a b) : Lower less d1 a b := by
  intro p ha hp
  rw [h.2.1 (a - 1) (by omega)] at hp
  exact h.allIn hab (hL p ha hp)

section order

variable {less : α → α → Bool}

theorem StrictWeak.asymm (sw : StrictWeak less) {x y : α} (h : less x y = true) :
    less y x = false := by
  cases hyx : less y x
  · rfl
  · have := sw.trans x y x h hyx
    rw [sw.irrefl] at this
    cases this

end order

end GoSort

namespace GoSort

variable {α : Type} {less : α → α → Bool}

theorem drop_eq_cons {d : List α} {n : Nat} {x : α} (h : d[n]? = some x) :
    d.drop n = x :: d.drop (n + 1) := by
  rcases List.getElem?_eq_some.mp h with ⟨h1, h2⟩
  rw [← h2]
  exact List.drop_eq_getElem_cons h1

theorem adjacent_decomp {d : List α} {j : Nat} {u v : α} (hu : d[j]? = some u)
    (hv : d[j + 1]? = some v) : d = d.take j ++ u :: v :: d.drop (j + 2) := by
  have h1 := (List.take_append_drop j d).symm
  rw [drop_eq_cons hu, drop_eq_cons hv] at h1
  exact h1

theorem Stab.stab_refl (d : List α) : Stab less d d := fun _ _ => rfl

theorem Stab.stab_trans {d d1 d2 : List α} (h1 : Stab less d d1) (h2 : Stab less d1 d2) :
    Stab less d d2 := fun q hq => (h2 q hq).trans (h1 q hq)

/-- Exchanging two neighbours of which the right one is `less` keeps the order of
incomparable elements. -/
theorem Stab_of_adjacent_swap {d d1 : List α} {j : Nat} {u v : α} (hu : d[j]? = some u)
    (hv : d[j + 1]? = some v) (hlt : less v u = true)
    (hk : ∀ k, d1[k]? = if k = j + 1 then d[j]? else if k = j then d[j + 1]? else d[k]?) :
    Stab less d d1 := by
  intro q hq
  have e1 : d1.take j = d.take j := by
    apply List.ext_getElem?
    intro n
    simp only [List.getElem?_take]
    split
    · rw [hk, if_neg (by omega), if_neg (by omega)]
    · rfl
  have e2 : d1.drop (j + 2) = d.drop (j + 2) := by
    apply List.ext_getElem?
    intro n
    simp only [List.getElem?_drop]
    rw [hk, if_neg (by omega), if_neg (by omega)]
  have hu1 : d1[j + 1]? = some u := by rw [hk, if_pos rfl, hu]
  have hv1 : d1[j]? = some v := by rw [hk, if_neg (by omega), if_pos rfl, hv]
  have hd := adjacent_decomp hu hv
  have hd1 := adjacent_decomp hv1 hu1
  rw [e1, e2] at hd1
  rw [hd1]
  conv => rhs; rw [hd]
  simp only [List.filter_append, List.filter_cons]
  have hnot : ¬ (q v = true ∧ q u = true) := by
    rintro ⟨h1, h2⟩
    rw [hq v u h1 h2] at hlt
    cases hlt
  cases qv : q v <;> cases qu : q u
  · simp
  · simp
  · simp
  · exact absurd ⟨qv, qu⟩ hnot

/-- The inner loop of insertion sort moves `data[j]` left to its place. -/
theorem insertionSort_inner_spec (sw : StrictWeak less) (a i : Nat) :
    ∀ (j : Nat) (d : List α), a ≤ j → j ≤ i → i < d.length →
      SortedOn less d a j → SortedOn less d j (i + 1) →
      (∀ p q x y, a ≤ p → p < j → j < q → q ≤ i → d[p]? = some x → d[q]? = some y →
        less y x = false) →
      ∃ d1, insertionSort_inner less a j d = some d1 ∧ Seg a (i + 1) d d1 ∧
        SortedOn less d1 a (i + 1) ∧ Stab less d d1
  | 0, d, ha, _, _, _, h2, _ => by
    refine ⟨d, rfl, Seg.seg_refl _ _ _, ?_, Stab.stab_refl _⟩
    have : a = 0 := by omega
    subst this
    exact h2
  | j + 1, d, ha, hji, hi, h1, h2, h3 => by
    obtain ⟨u, hu⟩ := exists_getElem? (show j < d.length by omega)
    obtain ⟨v, hv⟩ := exists_getElem? (show j + 1 < d.length by omega)
    unfold insertionSort_inner
    by_cases haj : a < j + 1
    · rw [if_pos haj, Less_some hv hu]
      cases hlt : less v u
      · -- in place
        refine ⟨d, rfl, Seg.seg_refl _ _ _, ?_, Stab.stab_refl _⟩
        intro p q x y hp hpq hq hx hy
        by_cases c1 : q < j + 1
        · exact h1 p q x y hp hpq c1 hx hy
        · by_cases c2 : j + 1 ≤ p
          · exact h2 p q x y c2 hpq hq hx hy
          · by_cases c3 : q = j + 1
            · subst c3
              rw [hv] at hy; cases hy
              by_cases c4 : p = j
              · subst c4; rw [hu] at hx; cases hx; exact hlt
              · exact sw.incomp _ _ _ hlt (h1 p j x u hp (by omega) (by omega) hx hu)
            · exact h3 p q x y hp (by omega) (by omega) (by omega) hx hy
      · -- swap and continue
        obtain ⟨d1, hs, hl, hperm, hk, hk1, hk2, hk3⟩ :=
          Swap_spec3 (show j + 1 < d.length by omega) (show j < d.length by omega)
        simp only [hs]
        have hseg : Seg a (i + 1) d d1 :=
          Seg_of_swap hl hperm hk (by omega) (by omega) (by omega) (by omega)
        have hstab : Stab less d d1 := Stab_of_adjacent_swap hu hv hlt hk
        rw [hu] at hk1
        rw [hv] at hk2
        obtain ⟨d2, hr, hseg2, hsorted2, hstab2⟩ :=
          insertionSort_inner_spec sw a i j d1 (by omega) (by omega) (by omega)
            (by
              intro p q x y hp hpq hq hx hy
              rw [hk3 _ (by omega) (by omega)] at hx hy
              exact h1 p q x y hp hpq (by omega) hx hy)
            (by
              intro p q x y hp hpq hq hx hy
              by_cases p0 : p = j
              · rw [p0, hk2] at hx
                rw [← Option.some.inj hx]
                by_cases q0 : q = j + 1
                · rw [q0, hk1] at hy
                  rw [← Option.some.inj hy]
                  exact sw.asymm hlt
                · rw [hk3 _ q0 (by omega)] at hy
                  exact h2 (j + 1) q v y (by omega) (by omega) hq hv hy
              · by_cases p1 : p = j + 1
                · rw [p1, hk1] at hx
                  rw [hk3 _ (by omega) (by omega)] at hy
                  rw [← Option.some.inj hx]
                  exact h3 j q u y (by omega) (by omega) (by omega) (by omega) hu hy
                · rw [hk3 _ p1 p0] at hx
                  rw [hk3 _ (by omega) (by omega)] at hy
                  exact h2 p q x y (by omega) hpq hq hx hy)
            (by
              intro p q x y hp hpj hjq hq hx hy
              rw [hk3 _ (by omega) (by omega)] at hx
              by_cases q0 : q = j + 1
              · rw [q0, hk1] at hy
                rw [← Option.some.inj hy]
                exact h1 p j x u hp hpj (by omega) hx hu
              · rw [hk3 _ q0 (by omega)] at hy
                exact h3 p q x y hp (by omega) (by omega) hq hx hy)
        exact ⟨d2, hr, hseg.seg_trans hseg2, hsorted2, hstab.stab_trans hstab2⟩
    · rw [if_neg haj]
      refine ⟨d, rfl, Seg.seg_refl _ _ _, ?_, Stab.stab_refl _⟩
      intro p q x y hp hpq hq hx hy
      exact h2 p q x y (by omega) hpq hq hx hy

theorem SortedOn.sorted_mono {d : List α} {a b a1 b1 : Nat} (h : SortedOn less d a b) (ha : a ≤ a1)
    (hb : b1 ≤ b) : SortedOn less d a1 b1 :=
  fun i j x y h1 h2 h3 hx hy => h i j x y (by omega) h2 (by omega) hx hy

theorem insertionSort_outer_spec (sw : StrictWeak less) (a b : Nat) :
    ∀ (fuel i : Nat) (d : List α), a ≤ i → b ≤ d.length → b - i ≤ fuel →
      SortedOn less d a i →
      ∃ d1, insertionSort_outer less a b fuel i d = some d1 ∧ Seg a b d d1 ∧
        SortedOn less d1 a b ∧ Stab less d d1
  | 0, i, d, _, _, hf, hs => by
    have : ¬ i < b := by omega
    simp only [insertionSort_outer, if_neg this]
    exact ⟨d, rfl, Seg.seg_refl _ _ _, hs.sorted_mono (Nat.le_refl _) (by omega), Stab.stab_refl _⟩
  | fuel + 1, i, d, hai, hb, hf, hs => by
    unfold insertionSort_outer
    by_cases hib : i < b
    · rw [if_pos hib]
      obtain ⟨d1, h1, hseg1, hsorted1, hstab1⟩ :=
        insertionSort_inner_spec sw a i i d hai (Nat.le_refl _) (by omega) hs
          (by intro p q x y _ _ _ _ _; omega)
          (by intro p q x y _ _ _ _ _ _; omega)
      simp only [h1]
      obtain ⟨d2, h2, hseg2, hsorted2, hstab2⟩ :=
        insertionSort_outer_spec sw a b fuel (i + 1) d1 (by omega) (by rw [hseg1.1]; exact hb)
          (by omega) hsorted1
      exact ⟨d2, h2, (hseg1.seg_mono (Nat.le_refl _) (by omega)).seg_trans hseg2, hsorted2,
        hstab1.stab_trans hstab2⟩
    · rw [if_neg hib]
      exact ⟨d, rfl, Seg.seg_refl _ _ _, hs.sorted_mono (Nat.le_refl _) (by omega), Stab.stab_refl _⟩

/-- Go `insertionSort_func` sorts `data[a:b]`, leaves the rest alone, and is stable. -/
theorem insertionSort_func_spec (sw : StrictWeak less) (d : List α) (a b : Nat)
    (hb : b ≤ d.length) :
    ∃ d1, insertionSort_func less d a b = some d1 ∧ Seg a b d d1 ∧
      SortedOn less d1 a b ∧ Stab less d d1 :=
  insertionSort_outer_spec sw a b (b - a) (a + 1) d (by omega) hb (by omega)
    (by intro p q x y _ _ _ _ _; omega)

end GoSort

namespace GoSort

variable {α : Type} {less : α → α → Bool}

theorem siftDown_loop_spec (sw : StrictWeak less) (hi first lo : Nat) :
    ∀ (fuel root : Nat) (d : List α), first + hi ≤ d.length → lo ≤ root → hi - root < fuel →
      HeapExcept less d first lo hi root →
      ∃ d1, siftDown_loop less hi first fuel root d = some d1 ∧ Seg first (first + hi) d d1 ∧
        HeapFrom less d1 first lo hi
  | 0, root, d, _, _, hf, _ => by omega
  | fuel + 1, root, d, hlen, hlo, hf, hE => by
    unfold siftDown_loop
    by_cases hc : hi ≤ 2 * root + 1
    · simp only [if_pos hc]
      refine ⟨d, rfl, Seg.seg_refl _ _ _, ?_⟩
      intro k c x y hk hcc hch hx hy
      by_cases hkr : k = root
      · omega
      · exact hE.1 k c x y hk hkr hcc hch hx hy
    · simp only [if_neg hc]
      obtain ⟨r, hr⟩ := exists_getElem? (show first + root < d.length by omega)
      -- the continuation once the larger child is known
      have key : ∀ c1 v, (c1 = 2 * root + 1 ∨ c1 = 2 * root + 2) → c1 < hi →
          d[first + c1]? = some v →
          (∀ c2 y2, (c2 = 2 * root + 1 ∨ c2 = 2 * root + 2) → c2 < hi →
            d[first + c2]? = some y2 → less v y2 = false) →
          ∃ d1, (match Less less d (first + root) (first + c1) with
            | none => none
            | some false => some d
            | some true =>
              match Swap d (first + root) (first + c1) with
              | none => none
              | some data1 => siftDown_loop less hi first fuel c1 data1) = some d1 ∧
            Seg first (first + hi) d d1 ∧ HeapFrom less d1 first lo hi := by
        intro c1 v hc1 hc1hi hv hmax
        rw [Less_some hr hv]
        cases hlt : less r v
        · -- the root is not less than its larger child
          refine ⟨d, rfl, Seg.seg_refl _ _ _, ?_⟩
          intro k c x y hk hcc hch hx hy
          by_cases hkr : k = root
          · rw [hkr, hr] at hx
            rw [← Option.some.inj hx]
            have := hmax c y (by omega) hch hy
            exact sw.incomp _ _ _ hlt this
          · exact hE.1 k c x y hk hkr hcc hch hx hy
        · obtain ⟨d1, hs, hl, hperm, hk, hk1, hk2, hk3⟩ :=
            Swap_spec3 (show first + root < d.length by omega)
              (show first + c1 < d.length by omega)
          simp only [hs]
          rw [hv] at hk1
          rw [hr] at hk2
          have hseg : Seg first (first + hi) d d1 :=
            Seg_of_swap hl hperm hk (by omega) (by omega) (by omega) (by omega)
          obtain ⟨d2, h2, hseg2, hheap2⟩ :=
            siftDown_loop_spec sw hi first lo fuel c1 d1 (by omega) (by omega) (by omega)
              (by
                constructor
                · intro k c x y hk hkc1 hcc hch hx hy
                  by_cases hkr : k = root
                  · rw [hkr, hk1] at hx
                    rw [← Option.some.inj hx]
                    by_cases hcc1 : c = c1
                    · rw [hcc1, hk2] at hy
                      rw [← Option.some.inj hy]
                      exact sw.asymm hlt
                    · rw [hk3 _ (by omega) (by omega)] at hy
                      exact hmax c y (by omega) hch hy
                  · rw [hk3 _ (by omega) (by omega)] at hx
                    by_cases hcr : c = root
                    · rw [hcr, hk1] at hy
                      rw [← Option.some.inj hy]
                      exact hE.2 k c1 x v hk (by omega) (by omega) hc1hi hx hv
                    · rw [hk3 _ (by omega) (by omega)] at hy
                      exact hE.1 k c x y hk hkr hcc hch hx hy
                · intro p c x y hp hpr hcc hch hx hy
                  have hproot : p = root := by omega
                  rw [hproot, hk1] at hx
                  rw [← Option.some.inj hx]
                  rw [hk3 _ (by omega) (by omega)] at hy
                  exact hE.1 c1 c v y (by omega) (by omega) hcc hch hv hy)
          exact ⟨d2, h2, hseg.seg_trans hseg2, hheap2⟩
      obtain ⟨y1, hy1⟩ := exists_getElem? (show first + (2 * root + 1) < d.length by omega)
      by_cases h2 : 2 * root + 1 + 1 < hi
      · obtain ⟨y2, hy2⟩ := exists_getElem? (show first + (2 * root + 1) + 1 < d.length by omega)
        simp only [if_pos h2, Less_some hy1 hy2]
        cases hlt : less y1 y2
        · refine key (2 * root + 1) y1 (by omega) (by omega) hy1 ?_
          intro c2 z hc2 hc2hi hz
          rcases hc2 with hc2 | hc2
          · rw [hc2, hy1] at hz
            rw [← Option.some.inj hz]
            exact sw.irrefl _
          · rw [hc2, show first + (2 * root + 2) = first + (2 * root + 1) + 1 by omega, hy2] at hz
            rw [← Option.some.inj hz]
            exact hlt
        · refine key (2 * root + 1 + 1) y2 (by omega) (by omega) hy2 ?_
          intro c2 z hc2 hc2hi hz
          rcases hc2 with hc2 | hc2
          · rw [hc2, hy1] at hz
            rw [← Option.some.inj hz]
            exact sw.asymm hlt
          · rw [hc2, show first + (2 * root + 2) = first + (2 * root + 1) + 1 by omega, hy2] at hz
            rw [← Option.some.inj hz]
            exact sw.irrefl _
      · simp only [if_neg h2]
        refine key (2 * root + 1) y1 (by omega) (by omega) hy1 ?_
        intro c2 z hc2 hc2hi hz
        rcases hc2 with hc2 | hc2
        · rw [hc2, hy1] at hz
          rw [← Option.some.inj hz]
          exact sw.irrefl _
        · omega

theorem siftDown_func_spec (sw : StrictWeak less) (d : List α) (lo hi first : Nat)
    (hlen : first + hi ≤ d.length) (hE : HeapExcept less d first lo hi lo) :
    ∃ d1, siftDown_func less d lo hi first = some d1 ∧ Seg first (first + hi) d d1 ∧
      HeapFrom less d1 first lo hi :=
  siftDown_loop_spec sw hi first lo (hi + 1) lo d hlen (Nat.le_refl _) (by omega) hE

theorem heapSort_build_spec (sw : StrictWeak less) (hi first : Nat) :
    ∀ (n : Nat) (d : List α), first + hi ≤ d.length → HeapFrom less d first n hi →
      ∃ d1, heapSort_build less hi first n d = some d1 ∧ Seg first (first + hi) d d1 ∧
        HeapFrom less d1 first 0 hi
  | 0, d, _, hH => ⟨d, rfl, Seg.seg_refl _ _ _, hH⟩
  | i + 1, d, hlen, hH => by
    unfold heapSort_build
    obtain ⟨d1, h1, hseg1, hheap1⟩ := siftDown_func_spec sw d i hi first hlen
      ⟨fun k c x y hk hki hcc hch hx hy => hH k c x y (by omega) hcc hch hx hy,
       fun p c x y hp hpr _ _ _ _ => by omega⟩
    simp only [h1]
    obtain ⟨d2, h2, hseg2, hheap2⟩ :=
      heapSort_build_spec sw hi first i d1 (by rw [hseg1.1]; exact hlen) hheap1
    exact ⟨d2, h2, hseg1.seg_trans hseg2, hheap2⟩

/-- The root of a heap is not `less` than any element of the heap. -/
theorem HeapFrom.root_max (sw : StrictWeak less) {d : List α} {first n : Nat}
    (hH : HeapFrom less d first 0 n) (hlen : first + n ≤ d.length) {r : α}
    (hr : d[first]? = some r) :
    ∀ (k : Nat) (x : α), k < n → d[first + k]? = some x → less r x = false := by
  intro k
  induction k using Nat.strong_induction_on with
  | _ k ih =>
    intro x hk hx
    by_cases h0 : k = 0
    · rw [h0, Nat.add_zero, hr] at hx
      rw [← Option.some.inj hx]
      exact sw.irrefl _
    · obtain ⟨z, hz⟩ := exists_getElem? (show first + (k - 1) / 2 < d.length by omega)
      have h1 := ih ((k - 1) / 2) (by omega) z (by omega) hz
      have h2 := hH ((k - 1) / 2) k z x (Nat.zero_le _) (by omega) hk hz hx
      exact sw.incomp _ _ _ h1 h2

theorem heapSort_pop_spec (sw : StrictWeak less) (hi first : Nat) :
    ∀ (n : Nat) (d : List α), first + hi ≤ d.length → n ≤ hi →
      HeapFrom less d first 0 n → SortedOn less d (first + n) (first + hi) →
      (∀ p q x y, first ≤ p → p < first + n → first + n ≤ q → q < first + hi →
        d[p]? = some x → d[q]? = some y → less y x = false) →
      ∃ d1, heapSort_pop less first n d = some d1 ∧ Seg first (first + hi) d d1 ∧
        SortedOn less d1 first (first + hi)
  | 0, d, _, _, _, hS, _ => ⟨d, rfl, Seg.seg_refl _ _ _, hS⟩
  | i + 1, d, hlen, hn, hH, hS, hC => by
    unfold heapSort_pop
    obtain ⟨r, hr⟩ := exists_getElem? (show first < d.length by omega)
    obtain ⟨v, hv⟩ := exists_getElem? (show first + i < d.length by omega)
    obtain ⟨d1, hs, hl, hperm, hk, hk1, hk2, hk3⟩ :=
      Swap_spec3 (show first < d.length by omega) (show first + i < d.length by omega)
    simp only [hs]
    rw [hv] at hk1
    rw [hr] at hk2
    have hseg1 : Seg first (first + hi) d d1 :=
      Seg_of_swap hl hperm hk (by omega) (by omega) (by omega) (by omega)
    have hmax := hH.root_max sw (by omega) hr
    -- every element of the heap part of `d1` is an element of the heap part of `d`
    have hfrom : ∀ p x, first ≤ p → p < first + i → d1[p]? = some x →
        ∃ p0, first ≤ p0 ∧ p0 < first + (i + 1) ∧ d[p0]? = some x := by
      intro p x hp1 hp2 hx
      by_cases hp : p = first
      · rw [hp, hk1] at hx
        exact ⟨first + i, by omega, by omega, by rw [hv, hx]⟩
      · rw [hk3 _ hp (by omega)] at hx
        exact ⟨p, hp1, by omega, hx⟩
    obtain ⟨d2, h2, hseg2, hheap2⟩ := siftDown_func_spec sw d1 0 i first (by omega)
      ⟨by
        intro k c x y _ hk0 hcc hch hx hy
        rw [hk3 _ (by omega) (by omega)] at hx hy
        exact hH k c x y (Nat.zero_le _) hcc (by omega) hx hy,
       fun p c x y _ hpr _ _ _ _ => by omega⟩
    simp only [h2]
    obtain ⟨d3, h3, hseg3, hsorted3⟩ :=
      heapSort_pop_spec sw hi first i d2 (by rw [hseg2.1, hl]; exact hlen) (by omega) hheap2
        (by
          intro p q x y hp hpq hq hx hy
          rw [hseg2.2.1 _ (by omega)] at hx hy
          rw [hk3 _ (by omega) (by omega)] at hy
          by_cases hpi : p = first + i
          · rw [hpi, hk2] at hx
            rw [← Option.some.inj hx]
            exact hC first q r y (Nat.le_refl _) (by omega) (by omega) hq hr hy
          · rw [hk3 _ (by omega) hpi] at hx
            exact hS p q x y (by omega) hpq hq hx hy)
        (by
          intro p q x y hp1 hp2 hq1 hq2 hx hy
          rw [hseg2.2.1 _ (by omega)] at hy
          have hall : AllIn d1 first (first + i) (fun x => less y x = false) := by
            intro p' x' hp1' hp2' hx'
            obtain ⟨p0, h01, h02, h03⟩ := hfrom p' x' hp1' hp2' hx'
            by_cases hqi : q = first + i
            · rw [hqi, hk2] at hy
              rw [← Option.some.inj hy]
              have := hmax (p0 - first) x' (by omega)
                (by rw [show first + (p0 - first) = p0 by omega]; exact h03)
              exact this
            · rw [hk3 _ (by omega) hqi] at hy
              exact hC p0 q x' y h01 h02 (by omega) hq2 h03 hy
          exact (hseg2.allIn (by omega) hall) p x hp1 hp2 hx)
    exact ⟨d3, h3, hseg1.seg_trans ((hseg2.seg_mono (Nat.le_refl _) (by omega)).seg_trans hseg3), hsorted3⟩

/-- Go `heapSort_func` sorts `data[a:b]` and leaves the rest alone. -/
theorem heapSort_func_spec (sw : StrictWeak less) (d : List α) (a b : Nat) (hab : a ≤ b)
    (hb : b ≤ d.length) :
    ∃ d1, heapSort_func less d a b = some d1 ∧ Seg a b d d1 ∧ SortedOn less d1 a b := by
  unfold heapSort_func
  have hab' : a + (b - a) = b := by omega
  obtain ⟨d1, h1, hseg1, hheap1⟩ :=
    heapSort_build_spec sw (b - a) a ((b - a - 1) / 2 + 1) d (by omega)
      (by intro k c x y hk hcc hch _ _; omega)
  simp only [h1]
  obtain ⟨d2, h2, hseg2, hsorted2⟩ :=
    heapSort_pop_spec sw (b - a) a (b - a) d1 (by rw [hseg1.1]; omega) (Nat.le_refl _) hheap1
      (by intro p q x y _ _ _ _ _; omega)
      (by intro p q x y _ _ _ _ _ _; omega)
  rw [hab'] at hseg1 hseg2 hsorted2
  exact ⟨d2, h2, hseg1.seg_trans hseg2, hsorted2⟩

end GoSort

namespace GoSort

variable {α : Type} {less : α → α → Bool}

theorem order2_func_spec (less : α → α → Bool) (d : List α) (a b swaps : Nat) (ha : a < d.length)
    (hb : b < d.length) :
    ∃ x y s, order2_func less d a b swaps = some (x, y, s) ∧
      ((x = a ∧ y = b) ∨ (x = b ∧ y = a)) := by
  obtain ⟨u, hu⟩ := exists_getElem? ha
  obtain ⟨v, hv⟩ := exists_getElem? hb
  unfold order2_func
  rw [Less_some hv hu]
  cases less v u
  · exact ⟨a, b, swaps, rfl, Or.inl ⟨rfl, rfl⟩⟩
  · exact ⟨b, a, swaps + 1, rfl, Or.inr ⟨rfl, rfl⟩⟩

theorem median_func_spec (less : α → α → Bool) (d : List α) (a b c swaps : Nat) (ha : a < d.length)
    (hb : b < d.length) (hc : c < d.length) :
    ∃ m s, median_func less d a b c swaps = some (m, s) ∧ (m = a ∨ m = b ∨ m = c) := by
  unfold median_func
  obtain ⟨a1, b1, s1, h1, e1⟩ := order2_func_spec less d a b swaps ha hb
  simp only [h1]
  obtain ⟨b2, c2, s2, h2, e2⟩ := order2_func_spec less d b1 c s1 (by omega) hc
  simp only [h2]
  obtain ⟨a3, b3, s3, h3, e3⟩ := order2_func_spec less d a1 b2 s2 (by omega) (by omega)
  simp only [h3]
  exact ⟨b3, s3, rfl, by omega⟩

theorem medianAdjacent_func_spec (less : α → α → Bool) (d : List α) (a swaps : Nat) (ha : 1 ≤ a)
    (hb : a + 1 < d.length) :
    ∃ m s, medianAdjacent_func less d a swaps = some (m, s) ∧ a - 1 ≤ m ∧ m ≤ a + 1 := by
  obtain ⟨m, s, h, e⟩ :=
    median_func_spec less d (a - 1) a (a + 1) swaps (by omega) (by omega) hb
  exact ⟨m, s, h, by omega, by omega⟩

theorem choosePivot_hint (j1 swaps : Nat) :
    ∃ h, (if swaps = 0 then some (j1, sortedHint.increasingHint)
      else if swaps = 4 * 3 then some (j1, sortedHint.decreasingHint)
      else some (j1, sortedHint.unknownHint)) = some (j1, h) := by
  by_cases h0 : swaps = 0
  · exact ⟨_, by rw [if_pos h0]⟩
  · by_cases h12 : swaps = 4 * 3
    · exact ⟨_, by rw [if_neg h0, if_pos h12]⟩
    · exact ⟨_, by rw [if_neg h0, if_neg h12]⟩

/-- Go `choosePivot_func` returns an index of `data[a:b]`. -/
theorem choosePivot_func_spec (less : α → α → Bool) (d : List α) (a b : Nat) (hab : a + 8 ≤ b) (hb : b ≤ d.length) :
    ∃ p h, choosePivot_func less d a b = some (p, h) ∧ a ≤ p ∧ p < b := by
  unfold choosePivot_func
  simp only []
  rw [if_pos (show 8 ≤ b - a by omega)]
  by_cases h50 : 50 ≤ b - a
  · rw [if_pos h50]
    obtain ⟨i1, s1, h1, e1, e1'⟩ := medianAdjacent_func_spec less d
      (a + (b - a) / 4 * 1) 0 (by omega) (by omega)
    obtain ⟨j1, s2, h2, e2, e2'⟩ := medianAdjacent_func_spec less d
      (a + (b - a) / 4 * 2) s1 (by omega) (by omega)
    obtain ⟨k1, s3, h3, e3, e3'⟩ := medianAdjacent_func_spec less d
      (a + (b - a) / 4 * 3) s2 (by omega) (by omega)
    simp only [h1, h2, h3]
    obtain ⟨m, s, h, e⟩ := median_func_spec less d i1 j1 k1 s3 (by omega)
      (by omega) (by omega)
    simp only [h]
    obtain ⟨hint, hh⟩ := choosePivot_hint m s
    exact ⟨m, hint, hh, by omega, by omega⟩
  · rw [if_neg h50]
    obtain ⟨m, s, h, e⟩ := median_func_spec less d (a + (b - a) / 4 * 1)
      (a + (b - a) / 4 * 2) (a + (b - a) / 4 * 3) 0 (by omega) (by omega) (by omega)
    simp only [h]
    obtain ⟨hint, hh⟩ := choosePivot_hint m s
    exact ⟨m, hint, hh, by omega, by omega⟩

theorem reverseRange_loop_spec (a b : Nat) :
    ∀ (fuel i j : Nat) (d : List α), a ≤ i → j < b → b ≤ d.length → j - i ≤ fuel →
      ∃ d1, reverseRange_loop fuel i j d = some d1 ∧ Seg a b d d1
  | 0, i, j, d, _, _, _, hf => by
    have : ¬ i < j := by omega
    simp only [reverseRange_loop, if_neg this]
    exact ⟨d, rfl, Seg.seg_refl _ _ _⟩
  | fuel + 1, i, j, d, hi, hj, hb, hf => by
    unfold reverseRange_loop
    by_cases hij : i < j
    · rw [if_pos hij]
      obtain ⟨d1, hs, hl, hperm, hk, _⟩ :=
        Swap_spec3 (show i < d.length by omega) (show j < d.length by omega)
      simp only [hs]
      obtain ⟨d2, h2, hseg2⟩ := reverseRange_loop_spec a b fuel (i + 1) (j - 1) d1 (by omega)
        (by omega) (by omega) (by omega)
      exact ⟨d2, h2, (Seg_of_swap hl hperm hk (by omega) (by omega) (by omega)
        (by omega)).seg_trans hseg2⟩
    · rw [if_neg hij]
      exact ⟨d, rfl, Seg.seg_refl _ _ _⟩

/-- Go `reverseRange_func` rearranges `data[a:b]` only. -/
theorem reverseRange_func_spec (d : List α) (a b : Nat) (hab : a < b) (hb : b ≤ d.length) :
    ∃ d1, reverseRange_func d a b = some d1 ∧ Seg a b d d1 :=
  reverseRange_loop_spec a b (b - a) a (b - 1) d (Nat.le_refl _) (by omega) hb (by omega)

theorem bitsLen_zero (fuel : Nat) : bitsLen fuel 0 = 0 := by
  cases fuel <;> simp [bitsLen]

theorem two_pow_bitsLen_le : ∀ (fuel n : Nat), 1 ≤ n → n ≤ fuel → 2 ^ bitsLen fuel n ≤ 2 * n
  | 0, n, h1, h2 => by omega
  | fuel + 1, n, h1, h2 => by
    unfold bitsLen
    rw [if_neg (by omega)]
    by_cases h : n / 2 = 0
    · rw [h, bitsLen_zero]
      simp
      omega
    · have ih := two_pow_bitsLen_le fuel (n / 2) (by omega) (by omega)
      rw [Nat.pow_succ]
      omega

theorem breakPatterns_step_spec (d : List α) (a b idx i random : Nat) (hab : a < b)
    (hb : b ≤ d.length) (h1 : a ≤ idx + i) (h2 : idx + i < b) :
    ∃ d1 r, breakPatterns_step d a (b - a) idx i random = some (d1, r) ∧ Seg a b d d1 := by
  unfold breakPatterns_step
  simp only []
  have hpow := two_pow_bitsLen_le (b - a) (b - a) (by omega) (Nat.le_refl _)
  have hand : xorshift_Next random &&& (nextPowerOfTwo (b - a) - 1) ≤
      nextPowerOfTwo (b - a) - 1 := Nat.and_le_right
  have hnp : nextPowerOfTwo (b - a) = 2 ^ bitsLen (b - a) (b - a) := rfl
  have hother : (if b - a ≤ xorshift_Next random &&& (nextPowerOfTwo (b - a) - 1) then
      (xorshift_Next random &&& (nextPowerOfTwo (b - a) - 1)) - (b - a)
      else xorshift_Next random &&& (nextPowerOfTwo (b - a) - 1)) < b - a := by
    have hpos : 0 < 2 ^ bitsLen (b - a) (b - a) := Nat.pos_pow_of_pos _ (by omega)
    split <;> omega
  generalize (if b - a ≤ xorshift_Next random &&& (nextPowerOfTwo (b - a) - 1) then
      (xorshift_Next random &&& (nextPowerOfTwo (b - a) - 1)) - (b - a)
      else xorshift_Next random &&& (nextPowerOfTwo (b - a) - 1)) = other at hother ⊢
  obtain ⟨d1, hs, hl, hperm, hk, _⟩ :=
    Swap_spec3 (show idx + i < d.length by omega) (show a + other < d.length by omega)
  simp only [hs]
  exact ⟨d1, _, rfl, Seg_of_swap hl hperm hk h1 h2 (by omega) (by omega)⟩

/-- Go `breakPatterns_func` rearranges `data[a:b]` only. -/
theorem breakPatterns_func_spec (d : List α) (a b : Nat) (hb : b ≤ d.length) :
    ∃ d1, breakPatterns_func d a b = some d1 ∧ Seg a b d d1 := by
  unfold breakPatterns_func
  by_cases h8 : 8 ≤ b - a
  · simp only [if_pos h8]
    obtain ⟨d1, r1, h1, hseg1⟩ := breakPatterns_step_spec d a b (a + (b - a) / 4 * 2 - 1) 0
      (b - a) (by omega) hb (by omega) (by omega)
    simp only [h1]
    obtain ⟨d2, r2, h2, hseg2⟩ := breakPatterns_step_spec d1 a b (a + (b - a) / 4 * 2 - 1) 1
      r1 (by omega) (by rw [hseg1.1]; exact hb) (by omega) (by omega)
    simp only [h2]
    obtain ⟨d3, r3, h3, hseg3⟩ := breakPatterns_step_spec d2 a b (a + (b - a) / 4 * 2 - 1) 2
      r2 (by omega) (by rw [hseg2.1, hseg1.1]; exact hb) (by omega) (by omega)
    simp only [h3]
    exact ⟨d3, rfl, (hseg1.seg_trans hseg2).seg_trans hseg3⟩
  · simp only [if_neg h8]
    exact ⟨d, rfl, Seg.seg_refl _ _ _⟩

end GoSort

namespace GoSort

variable {α : Type} {less : α → α → Bool}

theorem SortedOn.sorted_of_frame {d d1 : List α} {a b : Nat} (h : SortedOn less d a b)
    (hf : ∀ k, a ≤ k → k < b → d1[k]? = d[k]?) : SortedOn less d1 a b := by
  intro p q x y hp hpq hq hx hy
  rw [hf p hp (by omega)] at hx
  rw [hf q (by omega) hq] at hy
  exact h p q x y hp hpq hq hx hy

theorem AllIn.allIn_of_frame {d d1 : List α} {a b : Nat} {P : α → Prop} (h : AllIn d a b P)
    (hf : ∀ k, a ≤ k → k < b → d1[k]? = d[k]?) : AllIn d1 a b P := by
  intro k x hk1 hk2 hx
  rw [hf k hk1 hk2] at hx
  exact h k x hk1 hk2 hx

/-- A sorted prefix grows by an element that is not `less` than its left neighbour. -/
theorem SortedOn.snoc (sw : StrictWeak less) {d : List α} {a i : Nat} {x y : α}
    (h : SortedOn less d a i) (hx : d[i]? = some x) (hy : d[i - 1]? = some y)
    (hxy : less x y = false) : SortedOn less d a (i + 1) := by
  intro p q u v hp hpq hq hu hv
  by_cases hqi : q = i
  · rw [hqi, hx] at hv
    rw [← Option.some.inj hv]
    by_cases hpi : p = i - 1
    · rw [hpi, hy] at hu
      rw [← Option.some.inj hu]
      exact hxy
    · exact sw.incomp _ _ _ hxy (h p (i - 1) u y hp (by omega) (by omega) hu hy)
  · exact h p q u v hp hpq (by omega) hu hv

theorem partialInsertionSort_scan_spec (sw : StrictWeak less) (d : List α) (a b : Nat) :
    ∀ (fuel i : Nat), a < i → i ≤ b → b ≤ d.length → b - i ≤ fuel → SortedOn less d a i →
      ∃ i1, partialInsertionSort_scan less d b fuel i = some i1 ∧ i ≤ i1 ∧ i1 ≤ b ∧
        SortedOn less d a i1 ∧
        (i1 < b → ∃ x y, d[i1]? = some x ∧ d[i1 - 1]? = some y ∧ less x y = true)
  | 0, i, _, hib, _, hf, hs => by
    have : ¬ i < b := by omega
    simp only [partialInsertionSort_scan, if_neg this]
    exact ⟨i, rfl, Nat.le_refl _, hib, hs, fun h => by omega⟩
  | fuel + 1, i, hai, hib, hb, hf, hs => by
    unfold partialInsertionSort_scan
    by_cases hlt : i < b
    · rw [if_pos hlt]
      obtain ⟨x, hx⟩ := exists_getElem? (show i < d.length by omega)
      obtain ⟨y, hy⟩ := exists_getElem? (show i - 1 < d.length by omega)
      rw [Less_some hx hy]
      cases hxy : less x y
      · obtain ⟨i1, h1, e1, e2, e3, e4⟩ :=
          partialInsertionSort_scan_spec sw d a b fuel (i + 1) (by omega) (by omega) hb
            (by omega) (hs.snoc sw hx hy hxy)
        exact ⟨i1, h1, by omega, e2, e3, e4⟩
      · exact ⟨i, rfl, Nat.le_refl _, hib, hs, fun _ => ⟨x, y, hx, hy, hxy⟩⟩
    · rw [if_neg hlt]
      exact ⟨i, rfl, Nat.le_refl _, hib, hs, fun h => by omega⟩

theorem partialInsertionSort_left_spec (sw : StrictWeak less) (a i : Nat) :
    ∀ (j : Nat) (d : List α), a ≤ j → j ≤ i → i < d.length →
      SortedOn less d a j → SortedOn less d j (i + 1) →
      (∀ p q x y, a ≤ p → p < j → j < q → q ≤ i → d[p]? = some x → d[q]? = some y →
        less y x = false) →
      (∀ p x, 0 < a → d[a - 1]? = some p → d[j]? = some x → less x p = false) →
      ∃ d1, partialInsertionSort_left less j d = some d1 ∧ Seg a (i + 1) d d1 ∧
        SortedOn less d1 a (i + 1)
  | 0, d, ha, _, _, _, h2, _, _ => by
    refine ⟨d, rfl, Seg.seg_refl _ _ _, ?_⟩
    have : a = 0 := by omega
    subst this
    exact h2
  | j + 1, d, ha, hji, hi, h1, h2, h3, h4 => by
    obtain ⟨u, hu⟩ := exists_getElem? (show j < d.length by omega)
    obtain ⟨v, hv⟩ := exists_getElem? (show j + 1 < d.length by omega)
    unfold partialInsertionSort_left
    rw [Less_some hv hu]
    cases hlt : less v u
    · refine ⟨d, rfl, Seg.seg_refl _ _ _, ?_⟩
      intro p q x y hp hpq hq hx hy
      by_cases c1 : q < j + 1
      · exact h1 p q x y hp hpq c1 hx hy
      · by_cases c2 : j + 1 ≤ p
        · exact h2 p q x y c2 hpq hq hx hy
        · by_cases c3 : q = j + 1
          · rw [c3, hv] at hy
            rw [← Option.some.inj hy]
            by_cases c4 : p = j
            · rw [c4, hu] at hx
              rw [← Option.some.inj hx]
              exact hlt
            · exact sw.incomp _ _ _ hlt (h1 p j x u hp (by omega) (by omega) hx hu)
          · exact h3 p q x y hp (by omega) (by omega) (by omega) hx hy
    · have haj : a < j + 1 := by
        by_cases c : a < j + 1
        · exact c
        · have ha' : a = j + 1 := by omega
          have := h4 u v (by omega) (by rw [ha']; exact hu) hv
          rw [this] at hlt
          cases hlt
      obtain ⟨d1, hs, hl, hperm, hk, hk1, hk2, hk3⟩ :=
        Swap_spec3 (show j + 1 < d.length by omega) (show j < d.length by omega)
      simp only [hs]
      have hseg : Seg a (i + 1) d d1 :=
        Seg_of_swap hl hperm hk (by omega) (by omega) (by omega) (by omega)
      rw [hu] at hk1
      rw [hv] at hk2
      obtain ⟨d2, hr, hseg2, hsorted2⟩ :=
        partialInsertionSort_left_spec sw a i j d1 (by omega) (by omega) (by omega)
          (by
            intro p q x y hp hpq hq hx hy
            rw [hk3 _ (by omega) (by omega)] at hx hy
            exact h1 p q x y hp hpq (by omega) hx hy)
          (by
            intro p q x y hp hpq hq hx hy
            by_cases p0 : p = j
            · rw [p0, hk2] at hx
              rw [← Option.some.inj hx]
              by_cases q0 : q = j + 1
              · rw [q0, hk1] at hy
                rw [← Option.some.inj hy]
                exact sw.asymm hlt
              · rw [hk3 _ q0 (by omega)] at hy
                exact h2 (j + 1) q v y (by omega) (by omega) hq hv hy
            · by_cases p1 : p = j + 1
              · rw [p1, hk1] at hx
                rw [hk3 _ (by omega) (by omega)] at hy
                rw [← Option.some.inj hx]
                exact h3 j q u y (by omega) (by omega) (by omega) (by omega) hu hy
              · rw [hk3 _ p1 p0] at hx
                rw [hk3 _ (by omega) (by omega)] at hy
                exact h2 p q x y (by omega) hpq hq hx hy)
          (by
            intro p q x y hp hpj hjq hq hx hy
            rw [hk3 _ (by omega) (by omega)] at hx
            by_cases q0 : q = j + 1
            · rw [q0, hk1] at hy
              rw [← Option.some.inj hy]
              exact h1 p j x u hp hpj (by omega) hx hu
            · rw [hk3 _ q0 (by omega)] at hy
              exact h3 p q x y hp (by omega) (by omega) hq hx hy)
          (by
            intro p x ha0 hp hx
            rw [hk3 _ (by omega) (by omega)] at hp
            rw [hk2] at hx
            rw [← Option.some.inj hx]
            exact h4 p v ha0 hp hv)
      exact ⟨d2, hr, hseg.seg_trans hseg2, hsorted2⟩

theorem partialInsertionSort_right_spec (i1 b : Nat) :
    ∀ (fuel j : Nat) (d : List α), i1 < j → b ≤ d.length → b - j ≤ fuel →
      ∃ d1, partialInsertionSort_right less b fuel j d = some d1 ∧ Seg i1 b d d1
  | 0, j, d, _, _, hf => by
    have : ¬ j < b := by omega
    simp only [partialInsertionSort_right, if_neg this]
    exact ⟨d, rfl, Seg.seg_refl _ _ _⟩
  | fuel + 1, j, d, hj, hb, hf => by
    unfold partialInsertionSort_right
    by_cases hjb : j < b
    · rw [if_pos hjb]
      obtain ⟨x, hx⟩ := exists_getElem? (show j < d.length by omega)
      obtain ⟨y, hy⟩ := exists_getElem? (show j - 1 < d.length by omega)
      rw [Less_some hx hy]
      cases less x y
      · exact ⟨d, rfl, Seg.seg_refl _ _ _⟩
      · obtain ⟨d1, hs, hl, hperm, hk, _⟩ :=
          Swap_spec3 (show j < d.length by omega) (show j - 1 < d.length by omega)
        simp only [hs]
        obtain ⟨d2, h2, hseg2⟩ := partialInsertionSort_right_spec i1 b fuel
          (j + 1) d1 (by omega) (by omega) (by omega)
        exact ⟨d2, h2, (Seg_of_swap hl hperm hk (by omega) (by omega) (by omega)
          (by omega)).seg_trans hseg2⟩
    · rw [if_neg hjb]
      exact ⟨d, rfl, Seg.seg_refl _ _ _⟩

theorem partialInsertionSort_loop_spec (sw : StrictWeak less) (a b : Nat) :
    ∀ (steps i : Nat) (d : List α), a < i → i ≤ b → b ≤ d.length → SortedOn less d a i →
      Lower less d a b →
      ∃ d1 r, partialInsertionSort_loop less a b steps i d = some (d1, r) ∧ Seg a b d d1 ∧
        (r = true → SortedOn less d1 a b)
  | 0, i, d, _, _, _, _, _ => ⟨d, false, rfl, Seg.seg_refl _ _ _, fun h => by cases h⟩
  | steps + 1, i, d, hai, hib, hb, hs, hL => by
    unfold partialInsertionSort_loop
    obtain ⟨i1, h1, e1, e2, e3, e4⟩ :=
      partialInsertionSort_scan_spec sw d a b (b - i) i hai hib hb (Nat.le_refl _) hs
    simp only [h1]
    by_cases hi1 : i1 = b
    · rw [if_pos hi1]
      exact ⟨d, true, rfl, Seg.seg_refl _ _ _, fun _ => hi1 ▸ e3⟩
    · rw [if_neg hi1]
      by_cases h50 : b - a < 50
      · rw [if_pos h50]
        exact ⟨d, false, rfl, Seg.seg_refl _ _ _, fun h => by cases h⟩
      · rw [if_neg h50]
        obtain ⟨x, y, hx, hy, hxy⟩ := e4 (by omega)
        obtain ⟨d1, hsw, hl, hperm, hk, hk1, hk2, hk3⟩ :=
          Swap_spec3 (show i1 < d.length by omega) (show i1 - 1 < d.length by omega)
        simp only [hsw]
        rw [hy] at hk1
        rw [hx] at hk2
        have hseg1 : Seg a b d d1 :=
          Seg_of_swap hl hperm hk (by omega) (by omega) (by omega) (by omega)
        -- the shift to the left
        have hleft : ∃ d2, (if 2 ≤ i1 - a then partialInsertionSort_left less (i1 - 1) d1
            else some d1) = some d2 ∧ Seg a i1 d1 d2 ∧ SortedOn less d2 a i1 := by
          by_cases h2 : 2 ≤ i1 - a
          · rw [if_pos h2]
            obtain ⟨d2, hr, hseg2, hsorted2⟩ :=
              partialInsertionSort_left_spec sw a (i1 - 1) (i1 - 1) d1 (by omega)
                (Nat.le_refl _) (by omega)
                (by
                  intro p q u v hp hpq hq hu hv
                  rw [hk3 _ (by omega) (by omega)] at hu hv
                  exact e3 p q u v hp hpq (by omega) hu hv)
                (by intro p q u v _ _ _ _ _; omega)
                (by intro p q u v _ _ _ _ _ _; omega)
                (by
                  intro p u ha0 hp hu
                  rw [hk3 _ (by omega) (by omega)] at hp
                  rw [hk2] at hu
                  rw [← Option.some.inj hu]
                  exact hL p ha0 hp i1 x (by omega) (by omega) hx)
            rw [show i1 - 1 + 1 = i1 by omega] at hseg2 hsorted2
            exact ⟨d2, hr, hseg2, hsorted2⟩
          · rw [if_neg h2]
            exact ⟨d1, rfl, Seg.seg_refl _ _ _, by intro p q u v _ _ _ _ _; omega⟩
        obtain ⟨d2, hl2, hseg2, hsorted2⟩ := hleft
        simp only [hl2]
        have hright : ∃ d3, (if 2 ≤ b - i1 then
            partialInsertionSort_right less b (b - i1) (i1 + 1) d2 else some d2) = some d3 ∧
            Seg i1 b d2 d3 := by
          by_cases h2 : 2 ≤ b - i1
          · rw [if_pos h2]
            exact partialInsertionSort_right_spec i1 b (b - i1) (i1 + 1) d2 (by omega)
              (by rw [hseg2.1, hl]; exact hb) (by omega)
          · rw [if_neg h2]
            exact ⟨d2, rfl, Seg.seg_refl _ _ _⟩
        obtain ⟨d3, hr3, hseg3⟩ := hright
        simp only [hr3]
        have hsegall : Seg a b d d3 :=
          hseg1.seg_trans ((hseg2.seg_mono (Nat.le_refl _) (by omega)).seg_trans
            (hseg3.seg_mono (by omega) (Nat.le_refl _)))
        obtain ⟨d4, r, h4, hseg4, hsorted4⟩ :=
          partialInsertionSort_loop_spec sw a b steps i1 d3 (by omega) e2
            (by rw [hsegall.1]; exact hb)
            (hsorted2.sorted_of_frame (fun k _ hk2 => hseg3.2.1 k (Or.inl hk2)))
            (hsegall.lower (by omega) hL)
        exact ⟨d4, r, h4, hsegall.seg_trans hseg4, hsorted4⟩

/-- Go `partialInsertionSort_func` rearranges `data[a:b]` only, and the slice is sorted
when it returns true. -/
theorem partialInsertionSort_func_spec (sw : StrictWeak less) (d : List α) (a b : Nat)
    (hab : a < b) (hb : b ≤ d.length) (hL : Lower less d a b) :
    ∃ d1 r, partialInsertionSort_func less d a b = some (d1, r) ∧ Seg a b d d1 ∧
      (r = true → SortedOn less d1 a b) :=
  partialInsertionSort_loop_spec sw a b 5 (a + 1) d (by omega) (by omega) hb
    (by intro p q u v _ _ _ _ _; omega) hL

end GoSort

namespace GoSort

variable {α : Type} {less : α → α → Bool}

theorem scanUp_spec (cond : Nat → Option Bool) (j : Nat) :
    ∀ (fuel i : Nat), (∀ k, i ≤ k → k ≤ j → ∃ v, cond k = some v) → i ≤ j + 1 →
      j + 1 - i ≤ fuel →
      ∃ i1, scanUp cond j fuel i = some i1 ∧ i ≤ i1 ∧ i1 ≤ j + 1 ∧
        (∀ k, i ≤ k → k < i1 → cond k = some true) ∧ (i1 ≤ j → cond i1 = some false)
  | 0, i, _, hij, hf => by
    have : ¬ i ≤ j := by omega
    simp only [scanUp, if_neg this]
    exact ⟨i, rfl, Nat.le_refl _, hij, fun k _ _ => by omega, fun h => by omega⟩
  | fuel + 1, i, hdef, hij, hf => by
    unfold scanUp
    by_cases hle : i ≤ j
    · rw [if_pos hle]
      obtain ⟨v, hv⟩ := hdef i (Nat.le_refl _) hle
      rw [hv]
      cases v
      · exact ⟨i, rfl, Nat.le_refl _, hij, fun k _ _ => by omega, fun _ => hv⟩
      · obtain ⟨i1, h1, e1, e2, e3, e4⟩ := scanUp_spec cond j fuel (i + 1)
          (fun k hk1 hk2 => hdef k (by omega) hk2) (by omega) (by omega)
        refine ⟨i1, h1, by omega, e2, ?_, e4⟩
        intro k hk1 hk2
        by_cases hki : k = i
        · rw [hki]; exact hv
        · exact e3 k (by omega) hk2
    · rw [if_neg hle]
      exact ⟨i, rfl, Nat.le_refl _, hij, fun k _ _ => by omega, fun h => by omega⟩

theorem scanDown_spec (cond : Nat → Option Bool) (i : Nat) (hi : 1 ≤ i) :
    ∀ (fuel j : Nat), (∀ k, i ≤ k → k ≤ j → ∃ v, cond k = some v) → i ≤ j + 1 →
      j + 1 - i ≤ fuel →
      ∃ j1, scanDown cond i fuel j = some j1 ∧ j1 ≤ j ∧ i ≤ j1 + 1 ∧
        (∀ k, j1 < k → k ≤ j → cond k = some true) ∧ (i ≤ j1 → cond j1 = some false)
  | 0, j, _, hij, hf => by
    have : ¬ i ≤ j := by omega
    simp only [scanDown, if_neg this]
    exact ⟨j, rfl, Nat.le_refl _, hij, fun k _ _ => by omega, fun h => by omega⟩
  | fuel + 1, j, hdef, hij, hf => by
    unfold scanDown
    by_cases hle : i ≤ j
    · rw [if_pos hle]
      obtain ⟨v, hv⟩ := hdef j hle (Nat.le_refl _)
      rw [hv]
      cases v
      · exact ⟨j, rfl, Nat.le_refl _, hij, fun k _ _ => by omega, fun _ => hv⟩
      · obtain ⟨j1, h1, e1, e2, e3, e4⟩ := scanDown_spec cond i hi fuel (j - 1)
          (fun k hk1 hk2 => hdef k hk1 (by omega)) (by omega) (by omega)
        refine ⟨j1, h1, by omega, e2, ?_, e4⟩
        intro k hk1 hk2
        by_cases hkj : k = j
        · rw [hkj]; exact hv
        · exact e3 k hk1 (by omega)
    · rw [if_neg hle]
      exact ⟨j, rfl, Nat.le_refl _, hij, fun k _ _ => by omega, fun h => by omega⟩

section round

variable (U : α → Bool) (up down : List α → Nat → Option Bool) (a : Nat) (p : α)

/-- The two scans of a partition round: everything left of the new `i` satisfies `U`,
everything right of the new `j` does not. -/
theorem partition_scans
    (hup : ∀ (d1 : List α) k x, d1[a]? = some p → d1[k]? = some x → up d1 k = some (U x))
    (hdown : ∀ (d1 : List α) k x, d1[a]? = some p → d1[k]? = some x →
      down d1 k = some (!U x))
    {d : List α} {b i j : Nat} (hp : d[a]? = some p) (hai : a + 1 ≤ i) (hij : i ≤ j + 1)
    (hjb : j < b) (hb : b ≤ d.length)
    (hU : AllIn d (a + 1) i (fun x => U x = true))
    (hD : AllIn d (j + 1) b (fun x => U x = false)) :
    ∃ i1 j1, scanUp (up d) j (j + 1 - i) i = some i1 ∧
      scanDown (down d) i1 (j + 1 - i1) j = some j1 ∧
      i ≤ i1 ∧ j1 ≤ j ∧ i1 ≤ j + 1 ∧ i1 ≤ j1 + 1 ∧
      AllIn d (a + 1) i1 (fun x => U x = true) ∧ AllIn d (j1 + 1) b (fun x => U x = false) ∧
      (i1 ≤ j1 → i1 < j1 ∧ ∃ x y, d[i1]? = some x ∧ d[j1]? = some y ∧ U x = false ∧
        U y = true) := by
  obtain ⟨i1, h1, e1, e2, e3, e4⟩ := scanUp_spec (up d) j (j + 1 - i) i
    (fun k hk1 hk2 => by
      obtain ⟨x, hx⟩ := exists_getElem? (show k < d.length by omega)
      exact ⟨_, hup d k x hp hx⟩) hij (Nat.le_refl _)
  obtain ⟨j1, h2, f1, f2, f3, f4⟩ := scanDown_spec (down d) i1 (by omega) (j + 1 - i1) j
    (fun k hk1 hk2 => by
      obtain ⟨x, hx⟩ := exists_getElem? (show k < d.length by omega)
      exact ⟨_, hdown d k x hp hx⟩) e2 (Nat.le_refl _)
  have hU1 : AllIn d (a + 1) i1 (fun x => U x = true) := by
    intro k x hk1 hk2 hx
    by_cases hki : k < i
    · exact hU k x hk1 hki hx
    · have := e3 k (by omega) hk2
      rw [hup d k x hp hx] at this
      exact Option.some.inj this
  have hD1 : AllIn d (j1 + 1) b (fun x => U x = false) := by
    intro k x hk1 hk2 hx
    by_cases hkj : j < k
    · exact hD k x (by omega) hk2 hx
    · have := f3 k (by omega) (by omega)
      rw [hdown d k x hp hx] at this
      have := Option.some.inj this
      cases hUx : U x
      · rfl
      · rw [hUx] at this; cases this
  refine ⟨i1, j1, h1, h2, e1, f1, e2, f2, hU1, hD1, ?_⟩
  intro hle
  obtain ⟨x, hx⟩ := exists_getElem? (show i1 < d.length by omega)
  obtain ⟨y, hy⟩ := exists_getElem? (show j1 < d.length by omega)
  have hux : U x = false := by
    have := e4 (by omega)
    rw [hup d i1 x hp hx] at this
    exact Option.some.inj this
  have huy : U y = true := by
    have := f4 hle
    rw [hdown d j1 y hp hy] at this
    have := Option.some.inj this
    cases hUy : U y
    · rw [hUy] at this; cases this
    · rfl
  refine ⟨?_, x, y, hx, hy, hux, huy⟩
  by_cases heq : i1 = j1
  · rw [heq, hy] at hx
    rw [Option.some.inj hx, hux] at huy
    cases huy
  · omega

/-- The exchange that ends a partition round keeps the two regions. -/
theorem partition_exchange {d d1 : List α} {b i1 j1 : Nat} {x y : α}
    (hij : i1 < j1)
    (hk1 : d1[i1]? = some y) (hk2 : d1[j1]? = some x)
    (hk3 : ∀ k, k ≠ i1 → k ≠ j1 → d1[k]? = d[k]?)
    (hux : U x = false) (huy : U y = true)
    (hU : AllIn d (a + 1) i1 (fun x => U x = true))
    (hD : AllIn d (j1 + 1) b (fun x => U x = false)) :
    AllIn d1 (a + 1) (i1 + 1) (fun x => U x = true) ∧
      AllIn d1 (j1 - 1 + 1) b (fun x => U x = false) := by
  constructor
  · intro k z hk1' hk2' hz
    by_cases hki : k = i1
    · rw [hki, hk1] at hz
      rw [← Option.some.inj hz]
      exact huy
    · rw [hk3 k hki (by omega)] at hz
      exact hU k z hk1' (by omega) hz
  · intro k z hk1' hk2' hz
    by_cases hkj : k = j1
    · rw [hkj, hk2] at hz
      rw [← Option.some.inj hz]
      exact hux
    · rw [hk3 k (by omega) hkj] at hz
      exact hD k z (by omega) hk2' hz

theorem partition_loop_spec
    (hup : ∀ (d1 : List α) k x, d1[a]? = some p → d1[k]? = some x → up d1 k = some (U x))
    (hdown : ∀ (d1 : List α) k x, d1[a]? = some p → d1[k]? = some x →
      down d1 k = some (!U x)) (b : Nat) :
    ∀ (fuel i j : Nat) (d : List α), d[a]? = some p → a + 1 ≤ i → i ≤ j + 1 → j < b →
      b ≤ d.length → j + 1 - i < fuel →
      AllIn d (a + 1) i (fun x => U x = true) → AllIn d (j + 1) b (fun x => U x = false) →
      ∃ d1 i1 j1, partition_loop up down fuel i j d = some (d1, i1, j1) ∧
        Seg (a + 1) b d d1 ∧ i1 = j1 + 1 ∧ a + 1 ≤ i1 ∧ i1 ≤ b ∧
        AllIn d1 (a + 1) i1 (fun x => U x = true) ∧ AllIn d1 i1 b (fun x => U x = false)
  | 0, i, j, d, _, _, _, _, _, hf, _, _ => by omega
  | fuel + 1, i, j, d, hp, hai, hij, hjb, hb, hf, hU, hD => by
    unfold partition_loop
    obtain ⟨i1, j1, h1, h2, e1, e2, e3, e4, hU1, hD1, hsw⟩ :=
      partition_scans U up down a p hup hdown hp hai hij hjb hb hU hD
    simp only [h1, h2]
    by_cases hlt : j1 < i1
    · rw [if_pos hlt]
      have hi1 : i1 = j1 + 1 := by omega
      refine ⟨d, i1, j1, rfl, Seg.seg_refl _ _ _, hi1, by omega, by omega, hU1, ?_⟩
      rw [hi1]
      exact hD1
    · rw [if_neg hlt]
      obtain ⟨hij1, x, y, hx, hy, hux, huy⟩ := hsw (by omega)
      obtain ⟨d1, hs, hl, hperm, hk, hk1, hk2, hk3⟩ :=
        Swap_spec3 (show i1 < d.length by omega) (show j1 < d.length by omega)
      simp only [hs]
      rw [hy] at hk1
      rw [hx] at hk2
      obtain ⟨hU2, hD2⟩ := partition_exchange U a hij1 hk1 hk2 hk3
        hux huy hU1 hD1
      obtain ⟨d2, i2, j2, h3, hseg, g1, g2, g3, g4, g5⟩ :=
        partition_loop_spec hup hdown b fuel (i1 + 1) (j1 - 1) d1
          (by rw [hk3 a (by omega) (by omega)]; exact hp) (by omega) (by omega) (by omega)
          (by omega) (by omega) hU2 hD2
      exact ⟨d2, i2, j2, h3,
        (Seg_of_swap hl hperm hk (by omega) (by omega) (by omega) (by omega)).seg_trans hseg,
        g1, g2, g3, g4, g5⟩

end round

end GoSort

namespace GoSort

variable {α : Type} {less : α → α → Bool}

theorem partition_finish {d : List α} {a b i j : Nat} {p : α} (hp : d[a]? = some p)
    (hij : i = j + 1) (hai : a + 1 ≤ i) (hib : i ≤ b) (hb : b ≤ d.length)
    (hU : AllIn d (a + 1) i (fun x => less x p = true))
    (hD : AllIn d i b (fun x => less x p = false)) :
    ∃ d1, Swap d j a = some d1 ∧ Seg a b d d1 ∧ d1[j]? = some p ∧
      AllIn d1 a j (fun x => less x p = true) ∧
      AllIn d1 (j + 1) b (fun x => less x p = false) := by
  obtain ⟨d1, hs, hl, hperm, hk, hk1, hk2, hk3⟩ :=
    Swap_spec3 (show j < d.length by omega) (show a < d.length by omega)
  rw [hp] at hk1
  refine ⟨d1, hs, Seg_of_swap hl hperm hk (by omega) (by omega) (by omega) (by omega), hk1,
    ?_, ?_⟩
  · intro k x hk1' hk2' hx
    by_cases hka : k = a
    · rw [hka, hk2] at hx
      exact hU j x (by omega) (by omega) hx
    · rw [hk3 k (by omega) hka] at hx
      exact hU k x (by omega) (by omega) hx
  · intro k x hk1' hk2' hx
    rw [hk3 k (by omega) (by omega)] at hx
    exact hD k x (by omega) hk2' hx

/-- Go `partition_func`: the pivot ends at the returned index, with the elements `less`
than it on its left and the others on its right. -/
theorem partition_func_spec (less : α → α → Bool) (d : List α) (a b pivot : Nat) (p : α) (hap : a ≤ pivot)
    (hpb : pivot < b) (hab : a + 2 ≤ b) (hb : b ≤ d.length) (hp : d[pivot]? = some p) :
    ∃ d1 mid flag, partition_func less d a b pivot = some (d1, mid, flag) ∧ Seg a b d d1 ∧
      a ≤ mid ∧ mid < b ∧ d1[mid]? = some p ∧
      AllIn d1 a mid (fun x => less x p = true) ∧
      AllIn d1 (mid + 1) b (fun x => less x p = false) := by
  unfold partition_func
  obtain ⟨d1, hs, hl, hperm, hk, hk1, hk2, hk3⟩ :=
    Swap_spec3 (show a < d.length by omega) (show pivot < d.length by omega)
  rw [hp] at hk1
  simp only [hs]
  have hseg1 : Seg a b d d1 :=
    Seg_of_swap hl hperm hk (by omega) (by omega) (by omega) (by omega)
  have hup : ∀ (d2 : List α) k x, d2[a]? = some p → d2[k]? = some x →
      (fun (d3 : List α) i => Less less d3 i a) d2 k = some ((fun x => less x p) x) := by
    intro d2 k x h1 h2
    exact Less_some h2 h1
  have hdown : ∀ (d2 : List α) k x, d2[a]? = some p → d2[k]? = some x →
      (fun (d3 : List α) j => (Less less d3 j a).map not) d2 k =
        some (!(fun x => less x p) x) := by
    intro d2 k x h1 h2
    simp only [Less_some h2 h1, Option.map]
  obtain ⟨i1, j1, h1, h2, e1, e2, e3, e4, hU1, hD1, hsw⟩ :=
    partition_scans (fun x => less x p) (fun (d3 : List α) i => Less less d3 i a)
      (fun (d3 : List α) j => (Less less d3 j a).map not) a p hup hdown
      (d := d1) (b := b) (i := a + 1) (j := b - 1) hk1 (Nat.le_refl _) (by omega) (by omega)
      (by omega) (by intro k x _ _ _; omega) (by intro k x _ _ _; omega)
  rw [show b - 1 + 1 - (a + 1) = b - 1 - a by omega] at h1
  rw [show b - 1 + 1 - i1 = b - i1 by omega] at h2
  simp only [h1, h2]
  by_cases hlt : j1 < i1
  · rw [if_pos hlt]
    have hD1' : AllIn d1 i1 b (fun x => less x p = false) := by
      rw [show i1 = j1 + 1 by omega]; exact hD1
    obtain ⟨d2, hs2, hseg2, hmid, hA, hB⟩ :=
      partition_finish hk1 (show i1 = j1 + 1 by omega) e1 (by omega) (by omega) hU1 hD1'
    simp only [hs2]
    exact ⟨d2, j1, true, rfl, hseg1.seg_trans hseg2, by omega, by omega, hmid, hA, hB⟩
  · rw [if_neg hlt]
    obtain ⟨hij1, x, y, hx, hy, hux, huy⟩ := hsw (by omega)
    obtain ⟨d2, hs2, hl2, hperm2, hkk, hkk1, hkk2, hkk3⟩ :=
      Swap_spec3 (show i1 < d1.length by omega) (show j1 < d1.length by omega)
    simp only [hs2]
    rw [hy] at hkk1
    rw [hx] at hkk2
    obtain ⟨hU2, hD2⟩ := partition_exchange (fun x => less x p) a hij1
      hkk1 hkk2 hkk3 hux huy hU1 hD1
    obtain ⟨d3, i3, j3, h3, hseg3, g1, g2, g3, g4, g5⟩ :=
      partition_loop_spec (fun x => less x p) (fun (d3 : List α) i => Less less d3 i a)
        (fun (d3 : List α) j => (Less less d3 j a).map not) a p hup hdown b
        (b - a + 1) (i1 + 1) (j1 - 1) d2
        (by rw [hkk3 a (by omega) (by omega)]; exact hk1) (by omega) (by omega) (by omega)
        (by omega) (by omega) hU2 hD2
    simp only [h3]
    have hp3 : d3[a]? = some p := by
      rw [hseg3.2.1 a (by omega), hkk3 a (by omega) (by omega)]; exact hk1
    obtain ⟨d4, hs4, hseg4, hmid, hA, hB⟩ :=
      partition_finish hp3 g1 g2 g3 (by rw [hseg3.1, hl2, hl]; exact hb) g4 g5
    simp only [hs4]
    refine ⟨d4, j3, false, rfl, ?_, by omega, by omega, hmid, hA, hB⟩
    exact hseg1.seg_trans ((Seg_of_swap hl2 hperm2 hkk (by omega) (by omega) (by omega)
      (by omega)).seg_trans ((hseg3.seg_mono (by omega) (Nat.le_refl _)).seg_trans hseg4))

/-- Go `partitionEqual_func`, when no element of `data[a:b]` is `less` than the pivot:
the elements equivalent to the pivot come first, the greater ones after the returned
index. -/
theorem partitionEqual_func_spec (sw : StrictWeak less) (d : List α) (a b pivot : Nat) (p : α)
    (hap : a ≤ pivot) (hpb : pivot < b) (hab : a + 2 ≤ b) (hb : b ≤ d.length)
    (hp : d[pivot]? = some p) (hge : AllIn d a b (fun x => less x p = false)) :
    ∃ d1 mid, partitionEqual_func less d a b pivot = some (d1, mid) ∧ Seg a b d d1 ∧
      a < mid ∧ mid ≤ b ∧
      AllIn d1 a mid (fun x => less p x = false ∧ less x p = false) ∧
      AllIn d1 mid b (fun x => less p x = true) := by
  unfold partitionEqual_func
  obtain ⟨d1, hs, hl, hperm, hk, hk1, hk2, hk3⟩ :=
    Swap_spec3 (show a < d.length by omega) (show pivot < d.length by omega)
  rw [hp] at hk1
  simp only [hs]
  have hseg1 : Seg a b d d1 :=
    Seg_of_swap hl hperm hk (by omega) (by omega) (by omega) (by omega)
  have hup : ∀ (d2 : List α) k x, d2[a]? = some p → d2[k]? = some x →
      (fun (d3 : List α) i => (Less less d3 a i).map not) d2 k =
        some ((fun x => !less p x) x) := by
    intro d2 k x h1 h2
    simp only [Less_some h1 h2, Option.map]
  have hdown : ∀ (d2 : List α) k x, d2[a]? = some p → d2[k]? = some x →
      (fun (d3 : List α) j => Less less d3 a j) d2 k = some (!(fun x => !less p x) x) := by
    intro d2 k x h1 h2
    simp only [Less_some h1 h2, Bool.not_not]
  obtain ⟨d2, i2, j2, h2, hseg2, g1, g2, g3, g4, g5⟩ :=
    partition_loop_spec (fun x => !less p x) (fun (d3 : List α) i => (Less less d3 a i).map not)
      (fun (d3 : List α) j => Less less d3 a j) a p hup hdown b
      (b - a + 1) (a + 1) (b - 1) d1 hk1 (Nat.le_refl _) (by omega) (by omega) (by omega)
      (by omega) (by intro k x _ _ _; omega) (by intro k x _ _ _; omega)
  simp only [h2]
  have hsegall : Seg a b d d2 := hseg1.seg_trans (hseg2.seg_mono (by omega) (Nat.le_refl _))
  have hge2 : AllIn d2 a b (fun x => less x p = false) := hsegall.allIn (by omega) hge
  have hp2 : d2[a]? = some p := by rw [hseg2.2.1 a (by omega)]; exact hk1
  refine ⟨d2, i2, rfl, hsegall, by omega, g3, ?_, ?_⟩
  · intro k x hk1' hk2' hx
    refine ⟨?_, hge2 k x hk1' (by omega) hx⟩
    by_cases hka : k = a
    · rw [hka, hp2] at hx
      rw [← Option.some.inj hx]
      exact sw.irrefl _
    · have := g4 k x (by omega) hk2' hx
      simpa using this
  · intro k x hk1' hk2' hx
    have := g5 k x hk1' hk2' hx
    simpa using this

end GoSort

namespace GoSort

variable {α : Type} {less : α → α → Bool}

theorem sorted_join (sw : StrictWeak less) {d : List α} {a mid b : Nat} {p : α}
    (hmid : d[mid]? = some p) (h1 : SortedOn less d a mid) (h2 : SortedOn less d (mid + 1) b)
    (hA : AllIn d a mid (fun x => less x p = true))
    (hB : AllIn d (mid + 1) b (fun x => less x p = false)) : SortedOn less d a b := by
  intro i j x y hi hij hj hx hy
  by_cases c1 : j < mid
  · exact h1 i j x y hi hij c1 hx hy
  · by_cases c2 : mid < i
    · exact h2 i j x y (by omega) hij hj hx hy
    · by_cases c3 : i = mid
      · rw [c3, hmid] at hx
        rw [← Option.some.inj hx]
        exact hB j y (by omega) hj hy
      · have hxp : less x p = true := hA i x hi (by omega) hx
        by_cases c4 : j = mid
        · rw [c4, hmid] at hy
          rw [← Option.some.inj hy]
          exact sw.asymm hxp
        · have hyp : less y p = false := hB j y (by omega) hj hy
          cases h : less y x
          · rfl
          · rw [sw.trans y x p h hxp] at hyp
            cases hyp

theorem sorted_join_eq (sw : StrictWeak less) {d : List α} {a mid b : Nat} {p : α}
    (h2 : SortedOn less d mid b)
    (hE : AllIn d a mid (fun x => less p x = false ∧ less x p = false))
    (hG : AllIn d mid b (fun x => less p x = true)) : SortedOn less d a b := by
  intro i j x y hi hij hj hx hy
  by_cases c1 : mid ≤ i
  · exact h2 i j x y c1 hij hj hx hy
  · have hxe := hE i x hi (by omega) hx
    by_cases c2 : j < mid
    · have hye := hE j y (by omega) c2 hy
      exact sw.incomp _ _ _ hye.2 hxe.1
    · have hyg := hG j y (by omega) hj hy
      exact sw.incomp _ _ _ (sw.asymm hyg) hxe.1

/-- Go `pdqsort_func` sorts `data[a:b]` and leaves the rest of the slice alone, whatever
the limit and the two flags are. -/
theorem pdqsort_func_spec (sw : StrictWeak less) :
    ∀ (fuel : Nat) (d : List α) (a b limit : Nat) (wb wp : Bool), a ≤ b → b ≤ d.length →
      b - a < fuel → Lower less d a b →
      ∃ d1, pdqsort_func less fuel d a b limit wb wp = some d1 ∧ Seg a b d d1 ∧
        SortedOn less d1 a b
  | 0, d, a, b, limit, wb, wp, _, _, hf, _ => by omega
  | fuel + 1, d, a, b, limit, wb, wp, hab, hb, hf, hL => by
    unfold pdqsort_func
    simp only []
    by_cases h12 : b - a ≤ 12
    · rw [if_pos h12]
      obtain ⟨d1, h1, hseg, hsorted, _⟩ := insertionSort_func_spec sw d a b hb
      exact ⟨d1, h1, hseg, hsorted⟩
    rw [if_neg h12]
    by_cases hlim : limit = 0
    · rw [if_pos hlim]
      exact heapSort_func_spec sw d a b hab hb
    rw [if_neg hlim]
    -- breakPatterns
    have hbroken : ∃ d1 limit1,
        (if (!wb) = true then (breakPatterns_func d a b).map (fun d => (d, limit - 1))
          else some (d, limit)) = some (d1, limit1) ∧ Seg a b d d1 := by
      by_cases hwb : (!wb) = true
      · rw [if_pos hwb]
        obtain ⟨d1, h1, hseg⟩ := breakPatterns_func_spec d a b hb
        exact ⟨d1, limit - 1, by rw [h1]; rfl, hseg⟩
      · rw [if_neg hwb]
        exact ⟨d, limit, rfl, Seg.seg_refl _ _ _⟩
    obtain ⟨d1, limit1, hbr, hseg1⟩ := hbroken
    rw [hbr]
    simp only []
    have hb1 : b ≤ d1.length := by rw [hseg1.1]; exact hb
    -- choosePivot
    obtain ⟨pivot0, hint0, hcp, hp1, hp2⟩ :=
      choosePivot_func_spec less d1 a b (by omega) hb1
    rw [hcp]
    simp only []
    -- reverseRange
    have hreversed : ∃ d2 pivot hint,
        (if hint0 = sortedHint.decreasingHint then
          (reverseRange_func d1 a b).map
            (fun d => (d, (b - 1) - (pivot0 - a), sortedHint.increasingHint))
          else some (d1, pivot0, hint0)) = some (d2, pivot, hint) ∧ Seg a b d1 d2 ∧
          a ≤ pivot ∧ pivot < b := by
      by_cases hdec : hint0 = sortedHint.decreasingHint
      · rw [if_pos hdec]
        obtain ⟨d2, h2, hseg⟩ := reverseRange_func_spec d1 a b (by omega) hb1
        exact ⟨d2, _, _, by rw [h2]; rfl, hseg, by omega, by omega⟩
      · rw [if_neg hdec]
        exact ⟨d1, pivot0, hint0, rfl, Seg.seg_refl _ _ _, hp1, hp2⟩
    obtain ⟨d2, pivot, hint, hrev, hseg2, hpa, hpb⟩ := hreversed
    rw [hrev]
    simp only []
    have hseg02 : Seg a b d d2 := hseg1.seg_trans hseg2
    have hb2 : b ≤ d2.length := by rw [hseg02.1]; exact hb
    have hL2 : Lower less d2 a b := hseg02.lower hab hL
    -- partialInsertionSort
    have htried : ∃ d3 r,
        (if (wb && wp && decide (hint = sortedHint.increasingHint)) = true then
          partialInsertionSort_func less d2 a b
          else some (d2, false)) = some (d3, r) ∧ Seg a b d2 d3 ∧
          (r = true → SortedOn less d3 a b) := by
      by_cases hc : (wb && wp && decide (hint = sortedHint.increasingHint)) = true
      · rw [if_pos hc]
        exact partialInsertionSort_func_spec sw d2 a b (by omega) hb2 hL2
      · rw [if_neg hc]
        exact ⟨d2, false, rfl, Seg.seg_refl _ _ _, fun h => by cases h⟩
    obtain ⟨d3, r, htr, hseg3, hsorted3⟩ := htried
    rw [htr]
    have hseg03 : Seg a b d d3 := hseg02.seg_trans hseg3
    have hb3 : b ≤ d3.length := by rw [hseg03.1]; exact hb
    have hL3 : Lower less d3 a b := hseg03.lower hab hL
    cases r
    swap
    · exact ⟨d3, rfl, hseg03, hsorted3 rfl⟩
    simp only []
    obtain ⟨p, hp⟩ := exists_getElem? (show pivot < d3.length by omega)
    -- the test for many duplicates
    have hdup : ∃ v, (if 0 < a then (Less less d3 (a - 1) pivot).map not else some false) =
        some v ∧ (v = true → AllIn d3 a b (fun x => less x p = false)) := by
      by_cases ha0 : 0 < a
      · rw [if_pos ha0]
        obtain ⟨q, hq⟩ := exists_getElem? (show a - 1 < d3.length by omega)
        rw [Less_some hq hp]
        refine ⟨!less q p, rfl, ?_⟩
        intro hv
        have hqp : less q p = false := by
          cases h : less q p
          · rfl
          · rw [h] at hv; cases hv
        exact (hL3 q ha0 hq).imp (fun x hx => sw.incomp _ _ _ hx hqp)
      · rw [if_neg ha0]
        exact ⟨false, rfl, fun h => by cases h⟩
    obtain ⟨v, hv, hge⟩ := hdup
    rw [hv]
    cases v
    · -- an ordinary partition
      simp only []
      obtain ⟨d4, mid, flag, hpart, hseg4, hm1, hm2, hmid, hA, hB⟩ :=
        partition_func_spec less d3 a b pivot p hpa hpb (by omega) hb3 hp
      rw [hpart]
      simp only []
      have hseg04 : Seg a b d d4 := hseg03.seg_trans hseg4
      have hb4 : b ≤ d4.length := by rw [hseg04.1]; exact hb
      have hL4 : Lower less d4 a b := hseg04.lower hab hL
      by_cases hlr : mid - a < b - mid
      · rw [if_pos hlr]
        obtain ⟨d5, h5, hseg5, hsorted5⟩ :=
          pdqsort_func_spec sw fuel d4 a mid limit1 true true (by omega) (by omega) (by omega)
            (fun q ha0 hq => (hL4 q ha0 hq).allIn_mono (Nat.le_refl _) (by omega))
        rw [h5]
        simp only []
        have hmid5 : d5[mid]? = some p := by rw [hseg5.2.1 mid (by omega)]; exact hmid
        have hA5 : AllIn d5 a mid (fun x => less x p = true) := hseg5.allIn hm1 hA
        have hB5 : AllIn d5 (mid + 1) b (fun x => less x p = false) :=
          hB.allIn_of_frame (fun k hk1 _ => hseg5.2.1 k (by omega))
        obtain ⟨d6, h6, hseg6, hsorted6⟩ :=
          pdqsort_func_spec sw fuel d5 (mid + 1) b limit1
            (decide ((b - a) / 8 ≤ mid - a)) flag (by omega)
            (by rw [hseg5.1]; exact hb4) (by omega)
            (fun q _ hq => by
              rw [show mid + 1 - 1 = mid by omega, hmid5] at hq
              rw [← Option.some.inj hq]
              exact hB5)
        refine ⟨d6, h6, hseg04.seg_trans ((hseg5.seg_mono (Nat.le_refl _) (by omega)).seg_trans
          (hseg6.seg_mono (by omega) (Nat.le_refl _))), ?_⟩
        exact sorted_join sw (by rw [hseg6.2.1 mid (by omega)]; exact hmid5)
          (hsorted5.sorted_of_frame (fun k _ hk2 => hseg6.2.1 k (by omega)))
          hsorted6
          (hA5.allIn_of_frame (fun k _ hk2 => hseg6.2.1 k (by omega)))
          (hseg6.allIn (by omega) hB5)
      · rw [if_neg hlr]
        obtain ⟨d5, h5, hseg5, hsorted5⟩ :=
          pdqsort_func_spec sw fuel d4 (mid + 1) b limit1 true true (by omega) hb4 (by omega)
            (fun q _ hq => by
              rw [show mid + 1 - 1 = mid by omega, hmid] at hq
              rw [← Option.some.inj hq]
              exact hB)
        rw [h5]
        simp only []
        have hmid5 : d5[mid]? = some p := by rw [hseg5.2.1 mid (by omega)]; exact hmid
        have hA5 : AllIn d5 a mid (fun x => less x p = true) :=
          hA.allIn_of_frame (fun k _ hk2 => hseg5.2.1 k (by omega))
        have hB5 : AllIn d5 (mid + 1) b (fun x => less x p = false) :=
          hseg5.allIn (by omega) hB
        have hL5 : Lower less d5 a mid := by
          intro q ha0 hq
          rw [hseg5.2.1 (a - 1) (by omega)] at hq
          exact ((hL4 q ha0 hq).allIn_mono (Nat.le_refl _) (by omega)).allIn_of_frame
            (fun k _ hk2 => hseg5.2.1 k (by omega))
        obtain ⟨d6, h6, hseg6, hsorted6⟩ :=
          pdqsort_func_spec sw fuel d5 a mid limit1
            (decide ((b - a) / 8 ≤ b - mid)) flag (by omega)
            (by rw [hseg5.1]; omega) (by omega) hL5
        refine ⟨d6, h6, hseg04.seg_trans ((hseg5.seg_mono (by omega) (Nat.le_refl _)).seg_trans
          (hseg6.seg_mono (Nat.le_refl _) (by omega))), ?_⟩
        exact sorted_join sw (by rw [hseg6.2.1 mid (by omega)]; exact hmid5)
          hsorted6
          (hsorted5.sorted_of_frame (fun k hk1 _ => hseg6.2.1 k (by omega)))
          (hseg6.allIn hm1 hA5)
          (hB5.allIn_of_frame (fun k hk1 _ => hseg6.2.1 k (by omega)))
    · -- many duplicates: partition into equal and greater elements
      simp only []
      obtain ⟨d4, mid, hpart, hseg4, hm1, hm2, hE, hG⟩ :=
        partitionEqual_func_spec sw d3 a b pivot p hpa hpb (by omega) hb3 hp (hge rfl)
      rw [hpart]
      simp only []
      have hseg04 : Seg a b d d4 := hseg03.seg_trans hseg4
      have hb4 : b ≤ d4.length := by rw [hseg04.1]; exact hb
      obtain ⟨d5, h5, hseg5, hsorted5⟩ :=
        pdqsort_func_spec sw fuel d4 mid b limit1 wb wp hm2 hb4 (by omega)
          (by
            intro q _ hq k x hk1 hk2 hx
            have hqe : less p q = false ∧ less q p = false :=
              hE (mid - 1) q (by omega) (by omega) hq
            have hxg : less p x = true := hG k x hk1 hk2 hx
            cases h : less x q
            · rfl
            · have h1 := hqe.1
              rw [sw.trans p x q hxg h] at h1
              cases h1)
      refine ⟨d5, h5, hseg04.seg_trans (hseg5.seg_mono (by omega) (Nat.le_refl _)), ?_⟩
      exact sorted_join_eq sw hsorted5
        (hE.allIn_of_frame (fun k _ hk2 => hseg5.2.1 k (by omega)))
        (hseg5.allIn hm2 hG)

end GoSort

namespace GoSort

variable {α : Type} {less : α → α → Bool}

/-- Go `sort.Slice` with a strict weak order: the call returns, and the result is a
permutation of the slice in which no element is `less` than an earlier one. -/
theorem Slice_spec (sw : StrictWeak less) (x : List α) :
    ∃ out, Slice less x = some out ∧ out.Perm x ∧
      List.Pairwise (fun u v => less v u = false) out := by
  obtain ⟨out, h, hseg, hsorted⟩ :=
    pdqsort_func_spec sw (x.length + 1) x 0 x.length (bitsLen x.length x.length) true true
      (Nat.zero_le _) (Nat.le_refl _) (by omega) (fun p h0 _ => by omega)
  refine ⟨out, h, hseg.2.2, ?_⟩
  rw [List.pairwise_iff_getElem]
  intro i j hi hj hij
  exact hsorted i j _ _ (Nat.zero_le _) hij (by rw [← hseg.1]; exact hj)
    (List.getElem?_eq_getElem hi) (List.getElem?_eq_getElem hj)

/-- Go `sort.Slice` on at most twelve elements is an insertion sort, which is stable. -/
theorem Slice_stable (sw : StrictWeak less) (x : List α) (h12 : x.length ≤ 12) :
    ∃ out, Slice less x = some out ∧ Stab less x out := by
  obtain ⟨out, h, _, _, hstab⟩ := insertionSort_func_spec sw x 0 x.length (Nat.le_refl _)
  refine ⟨out, ?_, hstab⟩
  unfold Slice
  simp only []
  unfold pdqsort_func
  simp only []
  rw [if_pos (by omega)]
  exact h

end GoSort

namespace Poc

open GoTime

theorem updatedAfter_strictWeak : GoSort.StrictWeak updatedAfter := by
  constructor
  · intro x
    simp [updatedAfter, Time.After]
  · intro x y z h1 h2
    simp only [updatedAfter, Time.After, Bool.or_eq_true, Bool.and_eq_true,
      decide_eq_true_eq] at h1 h2 ⊢
    omega
  · intro x y z h1 h2
    simp only [updatedAfter, Time.After, Bool.or_eq_false_iff, Bool.and_eq_false_imp,
      decide_eq_false_iff_not, decide_eq_true_eq] at h1 h2 ⊢
    omega

end Poc

namespace Data

theorem appendUnarchived_eq (nodes : List Node) (acc : List IssueData) :
    appendUnarchived nodes acc =
      acc ++ (nodes.map Node.Issue).filter (fun i => !i.Repository.IsArchived) := by
  induction nodes generalizing acc with
  | nil => simp [appendUnarchived]
  | cons n rest ih =>
    by_cases h : n.Issue.Repository.IsArchived = true
    · simp [appendUnarchived, h, ih]
    · simp [appendUnarchived, h, ih]

theorem makeIssuesQuery_eq (q : String) :
    makeIssuesQuery q = "is:issue " ++ q ++ " sort:updated" := by
  apply String.ext
  simp [makeIssuesQuery, Fmt.Sprintf, Fmt.doPrintf, Fmt.Arg.verbS]

/-- Claim C1: when the search is answered, `FetchIssues` succeeds and its `Issues` are
exactly the node issues whose repository is not archived, in their original order: a
subsequence of the node issues, with no archived issue in it and no live issue dropped. -/
theorem C1_FetchIssues_keeps_exactly_unarchived (client : Client) (query : String)
    (limit : Int) (pageInfo : Option PageInfo) (search : Search)
    (hq : client.Query "SearchIssues"
      { query := makeIssuesQuery query, limit := graphqlInt limit,
        endCursor := endCursorOf pageInfo } = Except.ok search) :
    ∃ resp, (FetchIssues (Except.ok client) query limit pageInfo).2 = Except.ok resp ∧
      resp.Issues = (search.Nodes.map Node.Issue).filter (fun i => !i.Repository.IsArchived) ∧
      resp.Issues.Sublist (search.Nodes.map Node.Issue) ∧
      (∀ i ∈ resp.Issues, i.Repository.IsArchived = false) ∧
      (∀ n ∈ search.Nodes, n.Issue.Repository.IsArchived = false → n.Issue ∈ resp.Issues) := by
  refine ⟨{ Issues := appendUnarchived search.Nodes [], TotalCount := search.IssueCount,
            PageInfo := search.PageInfo }, ?_, ?_, ?_, ?_, ?_⟩
  · simp only [FetchIssues, hq]
  · simp [appendUnarchived_eq]
  · simp only [appendUnarchived_eq, List.nil_append]
    exact List.filter_sublist _
  · intro i hi
    simp only [appendUnarchived_eq, List.nil_append, List.mem_filter] at hi
    simpa using hi.2
  · intro n hn harch
    simp only [appendUnarchived_eq, List.nil_append, List.mem_filter, List.mem_map]
    exact ⟨⟨n, hn, rfl⟩, by simp [harch]⟩

/-- Claim C1 at a client whose answer has an archived issue between two live ones. -/
theorem C1_witness :
    sampleClient.Query "SearchIssues"
      { query := makeIssuesQuery "repo:org/repo", limit := graphqlInt 20,
        endCursor := endCursorOf none } = Except.ok sampleSearch ∧
    ∃ resp, (FetchIssues (Except.ok sampleClient) "repo:org/repo" 20 none).2 = Except.ok resp ∧
      resp.Issues =
        (sampleSearch.Nodes.map Node.Issue).filter (fun i => !i.Repository.IsArchived) ∧
      resp.Issues.Sublist (sampleSearch.Nodes.map Node.Issue) ∧
      (∀ i ∈ resp.Issues, i.Repository.IsArchived = false) ∧
      (∀ n ∈ sampleSearch.Nodes, n.Issue.Repository.IsArchived = false →
        n.Issue ∈ resp.Issues) :=
  ⟨rfl,
    C1_FetchIssues_keeps_exactly_unarchived sampleClient "repo:org/repo" 20 none sampleSearch
      rfl⟩

/-- Claim C4: `FetchIssues` sends one request; its `endCursor` variable is absent exactly
when no `PageInfo` was passed, and is the `EndCursor` of the `PageInfo` passed otherwise,
so a call given the `PageInfo` of an earlier answer never sends the cursor-absent
request. -/
theorem C4_endCursor_absent_iff_no_pageInfo (client : Client) (query : String) (limit : Int) :
    (FetchIssues (Except.ok client) query limit none).1.map Variables.endCursor = [none] ∧
    (∀ p : PageInfo, (FetchIssues (Except.ok client) query limit (some p)).1.map
      Variables.endCursor = [some p.EndCursor]) ∧
    (∀ pageInfo : Option PageInfo, endCursorOf pageInfo = none ↔ pageInfo = none) ∧
    (∀ pageInfo : Option PageInfo,
      (FetchIssues (Except.ok client) query limit pageInfo).1.map Variables.endCursor =
        [endCursorOf pageInfo]) ∧
    (∀ (first : IssuesResponse) (query2 : String) (limit2 : Int),
      none ∉ (FetchIssues (Except.ok client) query2 limit2 (some first.PageInfo)).1.map
        Variables.endCursor) := by
  have hall : ∀ (q : String) (l : Int) (pageInfo : Option PageInfo),
      (FetchIssues (Except.ok client) q l pageInfo).1.map Variables.endCursor =
        [endCursorOf pageInfo] := by
    intro q l pageInfo
    simp only [FetchIssues]
    split <;> rfl
  refine ⟨hall query limit none, fun p => hall query limit (some p), ?_, hall query limit, ?_⟩
  · intro pageInfo
    cases pageInfo <;> simp [endCursorOf]
  · intro first query2 limit2
    rw [hall]
    simp [endCursorOf]

/-- Claim C5: `makeIssuesQuery q` is `"is:issue " ++ q ++ " sort:updated"`: it starts with
the `is:issue` qualifier, ends with the `sort:updated` qualifier and has the query of the
caller unchanged in between; this is the `query` variable `FetchIssues` sends. -/
theorem C5_makeIssuesQuery_wraps_query (q : String) :
    makeIssuesQuery q = "is:issue " ++ q ++ " sort:updated" ∧
    (makeIssuesQuery q).data = "is:issue ".data ++ q.data ++ " sort:updated".data ∧
    "is:issue ".data <+: (makeIssuesQuery q).data ∧
    " sort:updated".data <:+ (makeIssuesQuery q).data ∧
    (∀ (client : Client) (limit : Int) (pageInfo : Option PageInfo),
      (FetchIssues (Except.ok client) q limit pageInfo).1.map Variables.query =
        ["is:issue " ++ q ++ " sort:updated"]) := by
  have hd : (makeIssuesQuery q).data = "is:issue ".data ++ q.data ++ " sort:updated".data := by
    rw [makeIssuesQuery_eq]; simp
  refine ⟨makeIssuesQuery_eq q, hd, ?_, ?_, ?_⟩
  · rw [hd, List.append_assoc]
    exact List.prefix_append _ _
  · rw [hd]
    exact List.suffix_append _ _
  · intro client limit pageInfo
    rw [← makeIssuesQuery_eq]
    simp only [FetchIssues]
    split <;> rfl

end Data

namespace Poc

open GoTime

theorem fetchStacks_ok (env : Env) (token body : String) (resp : StackAPIResponse)
    (hdo : env.Do (stacksRequest token) = Except.ok body)
    (hdec : env.DecodeStacks body = Except.ok resp) (out : List Stack)
    (hsort : GoSort.Slice updatedAfter resp.Stacks = some out) :
    fetchStacks env token = ([Effect.httpDo (stacksRequest token)], Except.ok out) := by
  have hreq : Request.HeaderSet
      ⟨"GET", "http://api.terramate.io/v1/stacks/5fbadfe9-b35b-4352-aadf-b03ee7a0a0c0", []⟩
      "Authorization" ("Bearer " ++ token) = stacksRequest token := rfl
  simp only [fetchStacks, NewRequest, hreq, hdo, hdec, hsort]

/-- Claim C2: when the transport answers and the body decodes, `fetchStacks` succeeds,
and the sequence it returns is a permutation of the decoded stacks (same records, same
multiplicities) that is non-increasing by `UpdatedAt`: no stack is updated after a stack
before it, in particular not after the stack just before it. -/
theorem C2_fetchStacks_sorted_permutation (env : Env) (token body : String)
    (resp : StackAPIResponse) (hdo : env.Do (stacksRequest token) = Except.ok body)
    (hdec : env.DecodeStacks body = Except.ok resp) :
    ∃ out, (fetchStacks env token).2 = Except.ok out ∧ out.Perm resp.Stacks ∧
      List.Pairwise (fun x y => y.UpdatedAt.After x.UpdatedAt = false) out ∧
      (∀ (i : Nat) (x y : Stack), out[i]? = some x → out[i + 1]? = some y →
        y.UpdatedAt.After x.UpdatedAt = false) := by
  obtain ⟨out, hs, hperm, hsorted⟩ := GoSort.Slice_spec updatedAfter_strictWeak resp.Stacks
  refine ⟨out, by rw [fetchStacks_ok env token body resp hdo hdec out hs], hperm, hsorted, ?_⟩
  intro i x y hx hy
  rw [List.pairwise_iff_getElem] at hsorted
  obtain ⟨h1, e1⟩ := List.getElem?_eq_some.mp hx
  obtain ⟨h2, e2⟩ := List.getElem?_eq_some.mp hy
  have := hsorted i (i + 1) h1 h2 (Nat.lt_succ_self i)
  rw [e1, e2] at this
  exact this

/-- Claim C2 in an environment whose inventory has three stacks, the newest last. -/
theorem C2_witness :
    (sampleEnv.Do (stacksRequest "tok") = Except.ok "body" ∧
      sampleEnv.DecodeStacks "body" = Except.ok sampleResponse) ∧
    ∃ out, (fetchStacks sampleEnv "tok").2 = Except.ok out ∧ out.Perm sampleResponse.Stacks ∧
      List.Pairwise (fun x y => y.UpdatedAt.After x.UpdatedAt = false) out ∧
      (∀ (i : Nat) (x y : Stack), out[i]? = some x → out[i + 1]? = some y →
        y.UpdatedAt.After x.UpdatedAt = false) :=
  ⟨⟨rfl, rfl⟩, C2_fetchStacks_sorted_permutation sampleEnv "tok" "body" sampleResponse rfl rfl⟩

set_option maxRecDepth 100000 in
/-- The result of `fetchStacks` on the thirteen stacks `tiedStacks`, by evaluation. -/
theorem fetchStacks_tied :
    (fetchStacks tiedEnv "tok").2.toOption = some tiedSorted := by
  decide

/-- Claim C3, refuted as stated: for the thirteen stacks `tiedStacks`, twelve of which
have the same `UpdatedAt`, `fetchStacks` succeeds and returns the stacks in the order
12, 6, 2, 3, 4, 5, 0, 7, 8, 9, 10, 11, 1 of their identifiers: stack 6 comes before
stack 0, which precedes it in the raw response and has the same `UpdatedAt`.

In `pdqsort_func` the slice is longer than 12, the pivot chosen is index 6 (the median
of the equal elements 3, 6, 9, without a swap), the partial insertion sort stops at the
out-of-order last element, and `partition_func` exchanges elements 0 and 6, then 1 and
12, and puts the pivot at index 1; the two parts are then at most 12 long and insertion
sort leaves them as they are. -/
theorem C3_counterexample_sort_not_stable :
    (fetchStacks tiedEnv "tok").2 = Except.ok tiedSorted ∧
      tiedSorted.map Stack.StackID = [12, 6, 2, 3, 4, 5, 0, 7, 8, 9, 10, 11, 1] ∧
      tiedStacks.map Stack.StackID = [0, 1, 2, 3, 4, 5, 6, 7, 8, 9, 10, 11, 12] ∧
      tiedStacks.map (fun s => s.UpdatedAt.sec) = [1, 1, 1, 1, 1, 1, 1, 1, 1, 1, 1, 1, 2] ∧
      ¬ StableByUpdatedAt tiedStacks tiedSorted := by
  refine ⟨?_, by decide, by decide, by decide, ?_⟩
  · have h := fetchStacks_tied
    cases hf : (fetchStacks tiedEnv "tok").2 with
    | error e => rw [hf] at h; simp [Except.toOption] at h
    | ok out =>
      rw [hf] at h
      simp only [Except.toOption, Option.some.injEq] at h
      rw [h]
  · intro hst
    exact absurd (hst { sec := 1, nsec := 0 }) (by decide)

/-- Claim C3, amended: when the raw response has at most twelve stacks, `fetchStacks`
succeeds and its sort is stable: for every update time, the stacks with that `UpdatedAt`
come in the returned sequence in their order in the raw response. -/
theorem C3_fetchStacks_stable_up_to_twelve (env : Env) (token body : String)
    (resp : StackAPIResponse) (hdo : env.Do (stacksRequest token) = Except.ok body)
    (hdec : env.DecodeStacks body = Except.ok resp) (hlen : resp.Stacks.length ≤ 12) :
    ∃ out, (fetchStacks env token).2 = Except.ok out ∧ StableByUpdatedAt resp.Stacks out := by
  obtain ⟨out, hs, hstab⟩ := GoSort.Slice_stable updatedAfter_strictWeak resp.Stacks hlen
  refine ⟨out, by rw [fetchStacks_ok env token body resp hdo hdec out hs], ?_⟩
  intro t
  apply hstab
  intro x y hx hy
  have ex : x.UpdatedAt = t := of_decide_eq_true hx
  have ey : y.UpdatedAt = t := of_decide_eq_true hy
  simp [updatedAfter, Time.After, ex, ey]

/-- The result of `fetchStacks` on the four stacks of `pairedResponse`, by evaluation:
the two stacks updated at second 30, then the two updated at second 10, each pair in its
order in the response. -/
theorem fetchStacks_paired :
    ((fetchStacks pairedEnv "tok").2.toOption.map (fun l => l.map Stack.StackID)) =
      some [2, 4, 1, 3] := by
  decide

/-- Claim C3, amended, in an environment whose inventory has four stacks with two pairs
of equal update times: of the permutations of the four stacks that are sorted, only the
one that keeps both pairs in the order of the response is stable. -/
theorem C3_witness :
    (pairedEnv.Do (stacksRequest "tok") = Except.ok "body" ∧
      pairedEnv.DecodeStacks "body" = Except.ok pairedResponse ∧
      pairedResponse.Stacks.length ≤ 12) ∧
    ∃ out, (fetchStacks pairedEnv "tok").2 = Except.ok out ∧
      StableByUpdatedAt pairedResponse.Stacks out :=
  ⟨⟨rfl, rfl, by decide⟩,
    C3_fetchStacks_stable_up_to_twelve pairedEnv "tok" "body" pairedResponse rfl rfl
      (by decide)⟩

/-- The stability of the claim is not that of every sorted permutation: the four stacks of
`pairedResponse` with the stacks 4 and 2 exchanged are sorted by update time, and not in
the order of the response. -/
theorem paired_unstable_order :
    ¬ StableByUpdatedAt pairedResponse.Stacks
      [mkStack 4 "d" StatusOK DeploymentOK DriftOK 30,
       mkStack 2 "b" StatusFailed DeploymentFailed DriftDrifted 30,
       mkStack 1 "a" StatusOK DeploymentOK DriftOK 10,
       mkStack 3 "c" StatusHealthy DeploymentPending DriftFailed 10] := by
  intro h
  exact absurd (h { sec := 30, nsec := 0 }) (by decide)

end Poc

namespace Lipgloss

theorem convertTabs_plain :
    ∀ (l : List Char), (∀ c ∈ l, c ≠ Char.ofNat 9) → convertTabs l = l
  | [], _ => rfl
  | c :: cs, h => by
    have hc : c ≠ Char.ofNat 9 := h c (List.mem_cons_self _ _)
    simp only [convertTabs, if_neg hc]
    rw [convertTabs_plain cs (fun x hx => h x (List.mem_cons_of_mem _ hx))]

theorem dropCarriageReturns_plain :
    ∀ (l : List Char), (∀ c ∈ l, c ≠ Char.ofNat 10) → dropCarriageReturns l = l
  | [], _ => rfl
  | c :: cs, h => by
    have hc : ¬ (c = Char.ofNat 13 ∧ cs.head? = some (Char.ofNat 10)) := by
      intro hcr
      exact h (Char.ofNat 10) (List.mem_cons_of_mem _ (List.mem_of_mem_head? hcr.2)) rfl
    simp only [dropCarriageReturns, if_neg hc]
    rw [dropCarriageReturns_plain cs (fun x hx => h x (List.mem_cons_of_mem _ hx))]

theorem splitLines_plain :
    ∀ (l : List Char), (∀ c ∈ l, c ≠ Char.ofNat 10) → splitLines l = [l]
  | [], _ => rfl
  | c :: cs, h => by
    have hc : c ≠ Char.ofNat 10 := h c (List.mem_cons_self _ _)
    simp only [splitLines, if_neg hc]
    rw [splitLines_plain cs (fun x hx => h x (List.mem_cons_of_mem _ hx))]

theorem convertTabs_mem :
    ∀ (l : List Char) (c : Char), c ∈ convertTabs l → c ∈ l ∨ c = ' '
  | [], c, h => by simp [convertTabs] at h
  | x :: xs, c, h => by
    by_cases hx : x = Char.ofNat 9
    · simp only [convertTabs, if_pos hx, List.mem_cons] at h
      rcases h with h | h | h | h | h
      · exact Or.inr h
      · exact Or.inr h
      · exact Or.inr h
      · exact Or.inr h
      · rcases convertTabs_mem xs c h with h1 | h1
        · exact Or.inl (List.mem_cons_of_mem _ h1)
        · exact Or.inr h1
    · simp only [convertTabs, if_neg hx, List.mem_cons] at h
      rcases h with h | h
      · exact Or.inl (h ▸ List.mem_cons_self _ _)
      · rcases convertTabs_mem xs c h with h1 | h1
        · exact Or.inl (List.mem_cons_of_mem _ h1)
        · exact Or.inr h1

/-- A string without a line feed is laid out as itself with four spaces for every tab. -/
theorem renderText_single_line (str : String) (h : ∀ c ∈ str.data, c ≠ Char.ofNat 10) :
    renderText str = String.mk (convertTabs str.data) := by
  have h1 : ∀ c ∈ convertTabs str.data, c ≠ Char.ofNat 10 := by
    intro c hc
    rcases convertTabs_mem str.data c hc with h2 | h2
    · exact h c h2
    · rw [h2]; decide
  unfold renderText
  simp only []
  rw [dropCarriageReturns_plain _ h1, splitLines_plain _ h1]

/-- A string without a tab and without a line feed is laid out as itself. -/
theorem renderText_plain (str : String)
    (h : ∀ c ∈ str.data, c ≠ Char.ofNat 9 ∧ c ≠ Char.ofNat 10) : renderText str = str := by
  rw [renderText_single_line str (fun c hc => (h c hc).2),
    convertTabs_plain str.data (fun c hc => (h c hc).1)]

end Lipgloss

namespace Poc

theorem green_ne_red (t u : String) : green t ≠ red u := by
  simp [green, red, Lipgloss.Style.Render, Lipgloss.Style.Foreground, Lipgloss.NewStyle]

theorem green_ne_yellow (t u : String) : green t ≠ yellow u := by
  simp [green, yellow, Lipgloss.Style.Render, Lipgloss.Style.Foreground, Lipgloss.NewStyle]

theorem red_ne_yellow (t u : String) : red t ≠ yellow u := by
  simp [red, yellow, Lipgloss.Style.Render, Lipgloss.Style.Foreground, Lipgloss.NewStyle]

theorem colorizeStatus_cases (s : Stack) (status : StackStatus) :
    (status = "ok" ∧ s.colorizeStatus status = green status) ∨
    (status = "failed" ∧ s.colorizeStatus status = red status) ∨
    (status ≠ "ok" ∧ status ≠ "failed" ∧ s.colorizeStatus status = yellow status) := by
  unfold Stack.colorizeStatus StatusOK StatusFailed
  by_cases h1 : status = "ok"
  · left; exact ⟨h1, by rw [if_pos h1]⟩
  · by_cases h2 : status = "failed"
    · right; left; exact ⟨h2, by rw [if_neg h1, if_pos h2]⟩
    · right; right; exact ⟨h1, h2, by rw [if_neg h1, if_neg h2]⟩

theorem colorizeDriftStatus_cases (s : Stack) (status : Poc.DriftStatus) :
    (status = "ok" ∧ s.colorizeDriftStatus status = green status) ∨
    (status = "drifted" ∧ s.colorizeDriftStatus status = red status) ∨
    (status ≠ "ok" ∧ status ≠ "drifted" ∧ s.colorizeDriftStatus status = yellow status) := by
  unfold Stack.colorizeDriftStatus DriftOK DriftDrifted
  by_cases h1 : status = "ok"
  · left; exact ⟨h1, by rw [if_pos h1]⟩
  · by_cases h2 : status = "drifted"
    · right; left; exact ⟨h2, by rw [if_neg h1, if_pos h2]⟩
    · right; right; exact ⟨h1, h2, by rw [if_neg h1, if_neg h2]⟩

/-- The annotation `colorizeStatus` yields carries the text lipgloss lays out from the
status. -/
theorem colorizeStatus_text (s : Stack) (status : StackStatus) :
    (s.colorizeStatus status).text = Lipgloss.renderText status := by
  rcases colorizeStatus_cases s status with ⟨_, h2⟩ | ⟨_, h2⟩ | ⟨_, _, h2⟩ <;> rw [h2] <;> rfl

/-- Claim C6, refuted as stated: the annotated text is not always the status string
itself.  For the status made of "a", a tab and "b" the annotation is the yellow one and
its text has four spaces in the place of the tab. -/
theorem C6_counterexample_tab_is_rewritten :
    deployedOk.colorizeStatus "a\tb" = yellow "a\tb" ∧
    (deployedOk.colorizeStatus "a\tb").text = "a    b" ∧
    (deployedOk.colorizeStatus "a\tb").text ≠ "a\tb" := by
  decide

/-- Claim C6, amended: `colorizeStatus` is total and three-way: for every status value it
yields one annotation, the green one exactly when the status is "ok", the red one exactly
when it is "failed", the yellow one exactly for every other value.  The annotated text is
the status string with four spaces for every tab whenever the status has no line feed: it
is the status string itself whenever the status has no tab and no line feed, as is the
case of each of the six declared status values. -/
theorem C6_colorizeStatus_three_way (s : Stack) (status : StackStatus) :
    ((∀ c ∈ status.data, c ≠ Char.ofNat 10) →
      (s.colorizeStatus status).text = String.mk (Lipgloss.convertTabs status.data)) ∧
    ((∀ c ∈ status.data, c ≠ Char.ofNat 9 ∧ c ≠ Char.ofNat 10) →
      (s.colorizeStatus status).text = status) ∧
    (∀ declared ∈ [StatusAll, StatusUnhealthy, StatusHealthy, StatusDrifted, StatusFailed,
        StatusOK], (s.colorizeStatus declared).text = declared) ∧
    (s.colorizeStatus status = green status ∨ s.colorizeStatus status = red status ∨
      s.colorizeStatus status = yellow status) ∧
    (s.colorizeStatus status = green status ↔ status = "ok") ∧
    (s.colorizeStatus status = red status ↔ status = "failed") ∧
    (s.colorizeStatus status = yellow status ↔ (status ≠ "ok" ∧ status ≠ "failed")) := by
  refine ⟨fun hline => by
      rw [colorizeStatus_text]; exact Lipgloss.renderText_single_line status hline,
    fun hplain => by rw [colorizeStatus_text]; exact Lipgloss.renderText_plain status hplain,
    ?_, ?_⟩
  · intro declared hd
    simp only [List.mem_cons, List.mem_singleton, List.not_mem_nil, or_false] at hd
    rcases hd with hd | hd | hd | hd | hd | hd <;> rw [hd] <;> rfl
  have hg := green_ne_red status status
  have hy := green_ne_yellow status status
  have hr := red_ne_yellow status status
  rcases colorizeStatus_cases s status with ⟨h1, h2⟩ | ⟨h1, h2⟩ | ⟨h1, h2, h3⟩
  · rw [h2]
    refine ⟨Or.inl rfl, ?_, ?_, ?_⟩
    · simp [h1]
    · constructor
      · intro h; exact absurd h hg
      · intro h; rw [h1] at h; exact absurd h (by decide)
    · constructor
      · intro h; exact absurd h hy
      · intro h; exact absurd h1 h.1
  · rw [h2]
    refine ⟨Or.inr (Or.inl rfl), ?_, ?_, ?_⟩
    · constructor
      · intro h; exact absurd h.symm hg
      · intro h; rw [h1] at h; exact absurd h (by decide)
    · simp [h1]
    · constructor
      · intro h; exact absurd h hr
      · intro h; exact absurd h1 h.2
  · rw [h3]
    refine ⟨Or.inr (Or.inr rfl), ?_, ?_, ?_⟩
    · constructor
      · intro h; exact absurd h.symm hy
      · intro h; exact absurd h h1
    · constructor
      · intro h; exact absurd h.symm hr
      · intro h; exact absurd h h2
    · simp [h1, h2]

/-- Claim C6, amended, on the status "pending". -/
theorem C6_witness :
    (∀ c ∈ ("pending" : String).data, c ≠ Char.ofNat 9 ∧ c ≠ Char.ofNat 10) ∧
    (deployedOk.colorizeStatus "pending").text = "pending" :=
  ⟨by decide, (C6_colorizeStatus_three_way deployedOk "pending").2.1 (by decide)⟩

/-- Claim C7, refuted as stated: the drift status "failed" (`DriftFailed`) gets the
yellow annotation, not the red one, and "drifted" gets the red annotation, not the
yellow one. -/
theorem C7_counterexample_drift_failed_is_warning :
    deployedOk.colorizeDriftStatus DriftFailed = yellow "failed" ∧
    deployedOk.colorizeDriftStatus DriftFailed ≠ red "failed" ∧
    deployedOk.colorizeDriftStatus DriftDrifted = red "drifted" ∧
    deployedOk.colorizeDriftStatus DriftDrifted ≠ yellow "drifted" := by
  decide

/-- Claim C7, amended: `colorizeDriftStatus` maps the drift status "ok" to the green
annotation, "drifted" to the red annotation, and every other value, "failed" included,
to the yellow annotation. -/
theorem C7_colorizeDriftStatus_three_way (s : Stack) (status : Poc.DriftStatus) :
    s.colorizeDriftStatus DriftOK = green "ok" ∧
    s.colorizeDriftStatus DriftDrifted = red "drifted" ∧
    s.colorizeDriftStatus DriftFailed = yellow "failed" ∧
    (s.colorizeDriftStatus status = green status ↔ status = "ok") ∧
    (s.colorizeDriftStatus status = red status ↔ status = "drifted") ∧
    (s.colorizeDriftStatus status = yellow status ↔ (status ≠ "ok" ∧ status ≠ "drifted")) := by
  have hg := green_ne_red status status
  have hy := green_ne_yellow status status
  have hr := red_ne_yellow status status
  refine ⟨rfl, rfl, rfl, ?_⟩
  rcases colorizeDriftStatus_cases s status with ⟨h1, h2⟩ | ⟨h1, h2⟩ | ⟨h1, h2, h3⟩
  · rw [h2]
    refine ⟨?_, ?_, ?_⟩
    · simp [h1]
    · constructor
      · intro h; exact absurd h hg
      · intro h; rw [h1] at h; exact absurd h (by decide)
    · constructor
      · intro h; exact absurd h hy
      · intro h; exact absurd h1 h.1
  · rw [h2]
    refine ⟨?_, ?_, ?_⟩
    · constructor
      · intro h; exact absurd h.symm hg
      · intro h; rw [h1] at h; exact absurd h (by decide)
    · simp [h1]
    · constructor
      · intro h; exact absurd h hr
      · intro h; exact absurd h1 h.2
  · rw [h3]
    refine ⟨?_, ?_, ?_⟩
    · constructor
      · intro h; exact absurd h.symm hy
      · intro h; exact absurd h h1
    · constructor
      · intro h; exact absurd h.symm hr
      · intro h; exact absurd h h2
    · simp [h1, h2]

theorem Title_eq (enc : Lipgloss.Rendered → String) (s : Stack) :
    s.Title enc = s.MetaName ++ "\tStatus:" ++ enc (s.colorizeStatus s.Status) ++ "\tDrift:" ++
      enc (s.colorizeDriftStatus s.DriftStatus) := by
  apply String.ext
  simp [Stack.Title, Fmt.Sprintf, Fmt.doPrintf, Fmt.Arg.verbS]

/-- Claim C9, refuted as stated: three stacks with deployment status ok, failed and
pending whose health status is "healthy" get the same status annotation in `Title`, the
yellow "healthy": the annotations are not distinct, and none is the failure or the
success annotation. -/
theorem C9_counterexample_title_ignores_deployment :
    deployedOk.DeploymentStatus = DeploymentOK ∧
    deployedFailed.DeploymentStatus = DeploymentFailed ∧
    deployedPending.DeploymentStatus = DeploymentPending ∧
    deployedOk.colorizeStatus deployedOk.Status = yellow "healthy" ∧
    deployedFailed.colorizeStatus deployedFailed.Status = yellow "healthy" ∧
    deployedPending.colorizeStatus deployedPending.Status = yellow "healthy" ∧
    (∀ enc : Lipgloss.Rendered → String,
      deployedOk.Title enc = "a\tStatus:" ++ enc (yellow "healthy") ++ "\tDrift:" ++
        enc (green "ok") ∧
      deployedFailed.Title enc = "b\tStatus:" ++ enc (yellow "healthy") ++ "\tDrift:" ++
        enc (green "ok") ∧
      deployedPending.Title enc = "c\tStatus:" ++ enc (yellow "healthy") ++ "\tDrift:" ++
        enc (green "ok")) := by
  refine ⟨rfl, rfl, rfl, by decide, by decide, by decide, ?_⟩
  intro enc
  refine ⟨?_, ?_, ?_⟩ <;> rw [Title_eq] <;> rfl

/-- Claim C9, amended: for three stacks whose `Status`, the status `Title` renders, is
"ok", "failed" and "pending", the status annotations in the three titles are distinct:
the green "ok", the red "failed" and the yellow "pending", so exactly one is the failure
annotation and exactly one the success annotation. -/
theorem C9_title_status_annotations (enc : Lipgloss.Rendered → String) (s1 s2 s3 : Stack)
    (h1 : s1.Status = "ok") (h2 : s2.Status = "failed") (h3 : s3.Status = "pending") :
    s1.Title enc = s1.MetaName ++ "\tStatus:" ++ enc (green "ok") ++ "\tDrift:" ++
      enc (s1.colorizeDriftStatus s1.DriftStatus) ∧
    s2.Title enc = s2.MetaName ++ "\tStatus:" ++ enc (red "failed") ++ "\tDrift:" ++
      enc (s2.colorizeDriftStatus s2.DriftStatus) ∧
    s3.Title enc = s3.MetaName ++ "\tStatus:" ++ enc (yellow "pending") ++ "\tDrift:" ++
      enc (s3.colorizeDriftStatus s3.DriftStatus) ∧
    green "ok" ≠ red "failed" ∧ red "failed" ≠ yellow "pending" ∧
    green "ok" ≠ yellow "pending" := by
  have e1 : s1.colorizeStatus s1.Status = green "ok" := by rw [h1]; rfl
  have e2 : s2.colorizeStatus s2.Status = red "failed" := by rw [h2]; rfl
  have e3 : s3.colorizeStatus s3.Status = yellow "pending" := by rw [h3]; rfl
  refine ⟨by rw [Title_eq, e1], by rw [Title_eq, e2], by rw [Title_eq, e3], ?_, ?_, ?_⟩
  · exact green_ne_red _ _
  · exact red_ne_yellow _ _
  · exact green_ne_yellow _ _

/-- Claim C9, amended, at three stacks of status ok, failed and pending. -/
theorem C9_witness :
    (statusOk.Status = "ok" ∧ statusFailed.Status = "failed" ∧
      statusPending.Status = "pending") ∧
    (statusOk.Title plainText = statusOk.MetaName ++ "\tStatus:" ++ plainText (green "ok") ++
      "\tDrift:" ++ plainText (statusOk.colorizeDriftStatus statusOk.DriftStatus) ∧
    statusFailed.Title plainText = statusFailed.MetaName ++ "\tStatus:" ++
      plainText (red "failed") ++ "\tDrift:" ++
      plainText (statusFailed.colorizeDriftStatus statusFailed.DriftStatus) ∧
    statusPending.Title plainText = statusPending.MetaName ++ "\tStatus:" ++
      plainText (yellow "pending") ++ "\tDrift:" ++
      plainText (statusPending.colorizeDriftStatus statusPending.DriftStatus) ∧
    green "ok" ≠ red "failed" ∧ red "failed" ≠ yellow "pending" ∧
    green "ok" ≠ yellow "pending") :=
  ⟨⟨rfl, rfl, rfl⟩,
    C9_title_status_annotations plainText statusOk statusFailed statusPending rfl rfl rfl⟩

/-- Claim C10: `FilterValue` of a stack is `MetaName ++ " " ++ Status ++ " " ++
DriftStatus`; it depends on no other field, so two stacks that agree on these three
fields have the same filter key.  The filter key of a `StackItem` is the `MetaName` of
its record. -/
theorem C10_FilterValue_of_three_fields (s : Stack) :
    s.FilterValue = s.MetaName ++ " " ++ s.Status ++ " " ++ s.DriftStatus ∧
    (∀ item : Stackssection.StackItem, item.FilterValue = item.Data.MetaName) ∧
    (∀ (id : Int) (repo path branch metaID descr : String) (tags : List String)
      (created updated seen : GoTime.Time) (deployment : Poc.DeploymentStatus) (draft : Bool),
      Stack.FilterValue
        { StackID := id, Repository := repo, Path := path, DefaultBranch := branch,
          MetaID := metaID, MetaName := s.MetaName, MetaDescription := descr,
          MetaTags := tags, Status := s.Status, CreatedAt := created, UpdatedAt := updated,
          SeenAt := seen, DeploymentStatus := deployment, DriftStatus := s.DriftStatus,
          Draft := draft } = s.FilterValue) := by
  have h : ∀ t : Stack, t.FilterValue = t.MetaName ++ " " ++ t.Status ++ " " ++ t.DriftStatus := by
    intro t
    apply String.ext
    simp [Stack.FilterValue, Fmt.Sprintf, Fmt.doPrintf, Fmt.Arg.verbS]
  refine ⟨h s, fun _ => rfl, ?_⟩
  intros
  rw [h, h]

end Poc

namespace Poc

/-- With a transport that fails, the first resize issues one fetch and the process ends
there, on the panic of `list.Update` on the list that was never filled. -/
theorem failing_transport_one_fetch :
    (fetches (run failingEnv sampleLib (New sampleLib)
      [Msg.WindowSizeMsg 80 24, Msg.WindowSizeMsg 90 24, Msg.WindowSizeMsg 100 24]).effects).length
      = 1 ∧
    (run failingEnv sampleLib (New sampleLib)
      [Msg.WindowSizeMsg 80 24, Msg.WindowSizeMsg 90 24, Msg.WindowSizeMsg 100 24]).handled =
      [Msg.WindowSizeMsg 80 24] := by
  decide

end Poc
